import Mathlib

/-!
Shallow embedding of the core of the `china_AI` portfolio simulator:
the currency-normalization service (`src/portfolio/services/fx.py`),
the initial-price repository (`src/portfolio/repositories.py`) and the
allocator (`src/portfolio/services/allocation.py`), together with proofs
of the testable properties stated for them.

Modelling conventions:
- Python floats are modelled as `ℚ`; where a `NaN` can actually flow
  (the initial local prices read from the CSV snapshot) the value is
  modelled as `PFloat` (`nan` or a rational).  Exact rational arithmetic
  is the idealized semantics of the float program; tolerance clauses in
  the properties ("within floating-point epsilon") become exact equalities.
- pandas timestamps and dates are modelled as `ℤ` (a day number).
- a pandas Series is modelled as a list of (index, value) pairs in index
  order; a missing value (`NaN`) is `Option.none`.
- accumulated `ServiceMessage`s keep their level and a structured tag
  identifying the message and the entity it mentions (the formatted
  Portuguese text itself carries no further information).
-/

namespace Portfolio

/-- Message severity, from `src/portfolio/messages.py` (`MessageLevel`). -/
inductive MessageLevel where
  | INFO
  | WARNING
  | ERROR
deriving DecidableEq, Repr

/-- Structured identity of each message emitted by the embedded code paths.
Each constructor corresponds to one message text in the source, tagged with
the ticker or currency interpolated into it. -/
inductive MsgTag where
  | csvNotFound
  | missingTickerCsv (ticker : String)
  | noInitialPrice (ticker : String)
  | noFxSeries (currency ticker : String)
  | fxAsofFallback (currency : String)
  | invalidPrice (ticker : String)
  | noPairConfig (currency : String)
  | fetchFailure (currency : String)
deriving DecidableEq, Repr

/-- One service message, from `src/portfolio/messages.py` (`ServiceMessage`). -/
structure ServiceMessage where
  level : MessageLevel
  tag : MsgTag
deriving DecidableEq, Repr

/-- Company record, from `src/portfolio/models.py` (`Company`). -/
structure Company where
  name : String
  ticker : String
  target_weight : ℚ
  currency : String
deriving DecidableEq, Repr

/-- Currency pair configuration, from `src/portfolio/models.py`
(`CurrencyPairConfig`).  A symbol that is Python-falsy (absent or the empty
string), which `load_series` treats as unconfigured, is modelled as
`none`. -/
structure CurrencyPairConfig where
  currency : String
  symbol : Option String
  invert : Bool
deriving DecidableEq, Repr

/-- A Python float that may be `NaN`.  Arithmetic on ordinary values is the
rational-number idealization of IEEE arithmetic. -/
inductive PFloat where
  | nan
  | val (q : ℚ)
deriving DecidableEq, Repr

/-- Product of two Python floats: `NaN` is absorbing. -/
def pfMul : PFloat → PFloat → PFloat
  | .val a, .val b => .val (a * b)
  | _, _ => .nan

/-- The test `pd.isna(x) or x <= 0` applied to a derived price
(`allocation.py` line 77). -/
def pyInvalid : PFloat → Bool
  | .nan => true
  | .val q => decide (q ≤ 0)

/-- Python `int()` on a float truncates toward zero. -/
def pyTrunc (q : ℚ) : ℤ := if q < 0 then ⌈q⌉ else ⌊q⌋

/-- The float-drift tolerance `PortfolioAllocator.EPS = 1e-6`
(`allocation.py` line 28). -/
def EPS : ℚ := 1 / 1000000

/-- A pandas Series of FX rates: (timestamp, value) pairs in index order,
`none` standing for a missing (`NaN`) value. -/
abbrev FxSeries := List (ℤ × Option ℚ)

/-- `Series.asof(ts)` on a sorted series: the latest non-missing value whose
index is at or before `ts`; `none` when there is no such value.  On the
list encoding (pairs in index order) this is the last qualifying entry. -/
def seriesAsof (s : FxSeries) (ts : ℤ) : Option ℚ :=
  ((s.filter (fun p => decide (p.1 ≤ ts) && p.2.isSome)).getLast?).bind Prod.snd

/-- `series.dropna().iloc[-1]` when it exists: the last non-missing value of
the whole series. -/
def lastValid (s : FxSeries) : Option ℚ :=
  (s.filterMap Prod.snd).getLast?

/-- `PortfolioAllocator._extract_fx_rate` (`allocation.py` lines 208-226):
asof lookup at the purchase date; if that yields nothing, emit a WARNING and
fall back to the last available value of the whole series, or 1.0 when the
series has no non-missing value at all. -/
def extract_fx_rate (currency : String) (fx_series : FxSeries) (purchase_ts : ℤ) :
    ℚ × List ServiceMessage :=
  match seriesAsof fx_series purchase_ts with
  | some v => (v, [])
  | none => ((lastValid fx_series).getD 1, [⟨.WARNING, .fxAsofFallback currency⟩])

/-! Currency normalizer, `src/portfolio/services/fx.py` (the identical code
also appears as `carregar_series_fx` in `src/app.py`). -/

/-- `serie.astype(float).replace(0.0, float("nan"))` (`fx.py` line 82):
only the exact value `0.0` is replaced by a missing value. -/
def sanitizeQuotes (closes : List (ℤ × ℚ)) : FxSeries :=
  closes.map (fun p => (p.1, if p.2 = 0 then none else some p.2))

/-- `serie = 1 / serie` when `invert` is set (`fx.py` lines 83-84); missing
values stay missing. -/
def invertQuotes (invert : Bool) (s : FxSeries) : FxSeries :=
  if invert then s.map (fun p => (p.1, p.2.map (fun v => 1 / v))) else s

/-- Insert one entry into a date-sorted series, keeping dates ascending. -/
def insertByDate (p : ℤ × Option ℚ) : FxSeries → FxSeries
  | [] => [p]
  | q :: qs => if p.1 ≤ q.1 then p :: q :: qs else q :: insertByDate p qs

/-- `serie.sort_index()` (`fx.py` line 85): chronological sort.  Ties between
duplicate dates are left in an unspecified order by pandas; this embedding
keeps the earlier entry first. -/
def sortByDate : FxSeries → FxSeries
  | [] => []
  | p :: ps => insertByDate p (sortByDate ps)

/-- `serie.reindex(index)` (`fx.py` line 86): exact-label selection onto the
target index; labels absent from the series become missing. -/
def reindexOn (index : List ℤ) (s : FxSeries) : FxSeries :=
  index.map (fun d => (d, ((s.lookup d).join)))

/-- Forward fill with an explicit carry of the last seen value. -/
def ffillAux (carry : Option ℚ) : FxSeries → FxSeries
  | [] => []
  | p :: ps =>
    match p.2 with
    | some v => (p.1, some v) :: ffillAux (some v) ps
    | none => (p.1, carry) :: ffillAux carry ps

/-- `serie.ffill()` (`fx.py` line 86). -/
def ffill (s : FxSeries) : FxSeries := ffillAux none s

/-- First non-missing value of a series, used to back-fill. -/
def firstSome (s : FxSeries) : Option ℚ :=
  (s.filterMap Prod.snd).head?

/-- `serie.bfill()` (`fx.py` line 89): each missing value takes the next
non-missing value after it. -/
def bfill : FxSeries → FxSeries
  | [] => []
  | p :: ps =>
    let rest := bfill ps
    match p.2 with
    | some v => (p.1, some v) :: rest
    | none => (p.1, firstSome rest) :: rest

/-- `serie.isna().all()` (`fx.py` line 87). -/
def allMissing (s : FxSeries) : Bool := s.all (fun p => p.2.isNone)

/-- The constant 1.0 series `pd.Series(1.0, index=index)` used for USD and
for every fallback path. -/
def constSeries (index : List ℤ) : FxSeries := index.map (fun d => (d, some 1))

/-- `CurrencyRatesService._fetch_currency_series` (`fx.py` lines 65-98).
The external `yf.Ticker(symbol).history(...)` call is supplied as `hist`:
`Except.error` models an exception during the fetch, `Except.ok` the list of
raw `Close` values.  An empty history (or a missing `Close` column, which the
encoding merges into emptiness) raises and is caught like every other
exception, producing the WARNING plus constant-1.0 fallback. -/
def fetchCurrencySeries (currency : String) (invert : Bool) (index : List ℤ)
    (hist : Except String (List (ℤ × ℚ))) : FxSeries × List ServiceMessage :=
  match hist with
  | .error _ => (constSeries index, [⟨.WARNING, .fetchFailure currency⟩])
  | .ok closes =>
    if closes.isEmpty then
      (constSeries index, [⟨.WARNING, .fetchFailure currency⟩])
    else
      let serie := invertQuotes invert (sanitizeQuotes closes)
      let reindexed := ffill (reindexOn index (sortByDate serie))
      if allMissing reindexed then
        (constSeries index, [⟨.WARNING, .fetchFailure currency⟩])
      else
        (bfill reindexed, [])

/-- Result of `CurrencyRatesService.load_series`, with a ghost log of the
symbols for which an external fetch was performed. -/
structure CurrencyRatesOutcome where
  series_by_currency : List (String × FxSeries)
  messages : List ServiceMessage
  fetched_symbols : List String
deriving Repr

/-- `CurrencyRatesService.load_series` (`fx.py` lines 27-63): USD gets a
constant 1.0 series with no fetch; a currency with no configured pair or no
quote symbol gets a WARNING and a constant 1.0 series with no fetch; any
other currency is fetched through `fetchCurrencySeries`.  `fetched_symbols`
records each symbol passed to the external market-data call. -/
def load_series (pair_config : List (String × CurrencyPairConfig))
    (fetch : String → Except String (List (ℤ × ℚ)))
    (currencies : List String) (index : List ℤ) : CurrencyRatesOutcome :=
  match currencies with
  | [] => ⟨[], [], []⟩
  | cur :: rest =>
    let restOut := load_series pair_config fetch rest index
    if cur = "USD" then
      ⟨(cur, constSeries index) :: restOut.series_by_currency,
        restOut.messages, restOut.fetched_symbols⟩
    else
      match (pair_config.lookup cur).bind (fun cfg => cfg.symbol) with
      | none =>
        ⟨(cur, constSeries index) :: restOut.series_by_currency,
          ⟨.WARNING, .noPairConfig cur⟩ :: restOut.messages,
          restOut.fetched_symbols⟩
      | some sym =>
        let invert := ((pair_config.lookup cur).map (fun cfg => cfg.invert)).getD false
        let fetched := fetchCurrencySeries cur invert index (fetch sym)
        ⟨(cur, fetched.1) :: restOut.series_by_currency,
          fetched.2 ++ restOut.messages,
          sym :: restOut.fetched_symbols⟩

/-! Initial-price repository, `src/portfolio/repositories.py`. -/

/-- `InitialPriceRepository.load_prices` (`repositories.py` lines 19-50).
The CSV snapshot is `none` when the file does not exist, otherwise the list
of (ticker, PrecoInicial) pairs of its rows.  A company whose ticker is
absent from the snapshot gets a WARNING and no price entry. -/
def load_prices (companies : List Company) (csv : Option (List (String × PFloat))) :
    List (String × PFloat) × List ServiceMessage :=
  match csv with
  | none => ([], [⟨.ERROR, .csvNotFound⟩])
  | some table =>
    (companies.filterMap (fun c => (table.lookup c.ticker).map (fun v => (c.ticker, v))),
     companies.flatMap (fun c =>
       if (table.lookup c.ticker).isSome then []
       else [⟨.WARNING, .missingTickerCsv c.ticker⟩]))

/-! Allocator, `src/portfolio/services/allocation.py`. -/

/-- One row of `df_alloc` (`allocation.py` lines 92-108).  The two
display-rounded columns (`Resíduo (inicial)` / `Resíduo`, stored in the
source as `round(residuo, 6)`) and the post-loop display columns
(`Investimento Inicial (USD)`, recomputed `Resíduo`) are presentation
formatting and carry the unrounded value here. -/
structure Row where
  empresa : String
  ticker : String
  moeda : String
  peso : ℚ
  preco_local : ℚ
  fx_rate : ℚ
  preco_usd : ℚ
  alvo_usd : ℚ
  qtd_exata : ℚ
  qtd_inteira_inicial : ℤ
  quantidade : ℤ
  residuo : ℚ
deriving DecidableEq, Repr

/-- Purchase audit record, from `src/portfolio/models.py` (`PurchaseEvent`). -/
structure PurchaseEvent where
  company : Company
  unit_price_usd : ℚ
  cash_before_usd : ℚ
  cash_after_usd : ℚ
  gap_before_usd : ℚ
  gap_after_usd : ℚ
  quantity_delta : ℤ := 1
deriving DecidableEq, Repr

/-- Current gap of a row: `Alvo USD - Quantidade * Preço Inicial (USD)`
(`allocation.py` lines 132-134). -/
def gapOf (r : Row) : ℚ := r.alvo_usd - (r.quantidade : ℚ) * r.preco_usd

/-- The `PurchaseEvent` appended for a purchase of one unit of row `r` when
the cash before the purchase is `caixa_antes` (`allocation.py` lines
150-174): the gap after is recomputed from the incremented quantity. -/
def mkEvent (r : Row) (caixa_antes : ℚ) : PurchaseEvent :=
  { company := { name := r.empresa, ticker := r.ticker,
                 target_weight := r.peso, currency := r.moeda },
    unit_price_usd := r.preco_usd,
    cash_before_usd := caixa_antes,
    cash_after_usd := caixa_antes - r.preco_usd,
    gap_before_usd := gapOf r,
    gap_after_usd := r.alvo_usd - ((r.quantidade : ℚ) + 1) * r.preco_usd,
    quantity_delta := 1 }

/-- Mutable state of the cash-distribution loop. -/
structure LoopState where
  rows : List Row
  caixa : ℚ
  eventos : List PurchaseEvent
deriving Repr

/-- `coluna_investimento.min()` (`allocation.py` line 128): minimum USD price
over the allocation rows (the loop is only reached with a non-empty frame). -/
def minPrice (rows : List Row) : ℚ :=
  match rows.map Row.preco_usd with
  | [] => 0
  | p :: ps => ps.foldl min p

/-- The candidate selection of one loop iteration (`allocation.py` lines
136-146): restrict to rows whose price is affordable within `caixa + EPS`,
then take the first row of the frame sorted by gap descending and price
ascending.  Rows are paired with their positional index.  When two
affordable rows tie on both keys the unstable pandas sort leaves the winner
unspecified; this embedding keeps the earliest such row. -/
def pick (caixa : ℚ) : List (ℕ × Row) → Option (ℕ × Row)
  | [] => none
  | ir :: rest =>
    if ir.2.preco_usd ≤ caixa + EPS then
      match pick caixa rest with
      | none => some ir
      | some best =>
        if gapOf best.2 > gapOf ir.2 ∨
            (gapOf best.2 = gapOf ir.2 ∧ best.2.preco_usd < ir.2.preco_usd) then
          some best
        else some ir
    else pick caixa rest

/-- The iterative cash-distribution loop (`allocation.py` lines 131-174),
with explicit fuel.  One iteration: stop when even the cheapest price
exceeds `caixa + EPS`; otherwise select a candidate (`none` only when no row
is affordable, a dead branch given the loop condition), stop when the
selected gap is non-positive, and otherwise buy one unit, debit the cash and
append the purchase event.  The source computes `min_price` once before the
loop; it is recomputed here, which is provably the same value because prices
never change (`minPrice_set`).  `allocate` supplies enough fuel for the loop
to reach its genuine exit. -/
def distLoop : ℕ → LoopState → LoopState
  | 0, st => st
  | fuel + 1, st =>
    if minPrice st.rows ≤ st.caixa + EPS then
      match pick st.caixa st.rows.enum with
      | none => st
      | some ir =>
        if gapOf ir.2 ≤ 0 then st
        else
          distLoop fuel
            { rows := st.rows.set ir.1 { ir.2 with quantidade := ir.2.quantidade + 1 },
              caixa := st.caixa - ir.2.preco_usd,
              eventos := st.eventos ++ [mkEvent ir.2 st.caixa] }
    else st

/-- Fuel that dominates the iteration count of the loop: the cash decreases
by at least `min_price` per purchase while the loop condition keeps
`caixa + EPS` at or above `min_price`. -/
def fuelBound (caixa min_price : ℚ) : ℕ :=
  (⌈(caixa + EPS) / min_price⌉).toNat + 1

/-- `(df_alloc["Quantidade"] * coluna_investimento).sum()`: currently
invested USD amount of the rows. -/
def invested (rows : List Row) : ℚ :=
  (rows.map (fun r => (r.quantidade : ℚ) * r.preco_usd)).sum

/-- FX-rate resolution for one company inside `allocate` (`allocation.py`
lines 59-74): a missing or empty series for the company's currency degrades
to 1.0 with a WARNING, otherwise `_extract_fx_rate` is used. -/
def fxRateOf (ts : ℤ) (fx : List (String × FxSeries)) (c : Company) :
    ℚ × List ServiceMessage :=
  match fx.lookup c.currency with
  | none => (1, [⟨.WARNING, .noFxSeries c.currency c.ticker⟩])
  | some s =>
    if s.isEmpty then (1, [⟨.WARNING, .noFxSeries c.currency c.ticker⟩])
    else extract_fx_rate c.currency s ts

/-- Step 1 of `allocate` for a single company (`allocation.py` lines 46-108):
price lookup, FX resolution, USD price validation and row construction.
Returns the built row (or `none` when the company is excluded) and the
messages emitted for this company, in emission order. -/
def resolveCompany (total_cash_usd : ℚ) (ts : ℤ)
    (initial_prices_local : List (String × PFloat))
    (fx : List (String × FxSeries)) (c : Company) :
    Option Row × List ServiceMessage :=
  match initial_prices_local.lookup c.ticker with
  | none => (none, [⟨.ERROR, .noInitialPrice c.ticker⟩])
  | some preco_ini_local =>
    let fxr := fxRateOf ts fx c
    match preco_ini_local with
    | .nan => (none, fxr.2 ++ [⟨.ERROR, .invalidPrice c.ticker⟩])
    | .val l =>
      let preco_ini_usd := l * fxr.1
      if preco_ini_usd ≤ 0 then
        (none, fxr.2 ++ [⟨.ERROR, .invalidPrice c.ticker⟩])
      else
        let valor_desejado := total_cash_usd * c.target_weight / 100
        let qtd_exata := valor_desejado / preco_ini_usd
        let qtd_inteira := pyTrunc qtd_exata
        (some { empresa := c.name, ticker := c.ticker, moeda := c.currency,
                peso := c.target_weight, preco_local := l, fx_rate := fxr.1,
                preco_usd := preco_ini_usd, alvo_usd := valor_desejado,
                qtd_exata := qtd_exata, qtd_inteira_inicial := qtd_inteira,
                quantidade := qtd_inteira,
                residuo := qtd_exata - (qtd_inteira : ℚ) },
         fxr.2)

/-- The rows accumulated by step 1 of `allocate`, in company order. -/
def step1Rows (total_cash_usd : ℚ) (ts : ℤ)
    (prices : List (String × PFloat)) (fx : List (String × FxSeries))
    (companies : List Company) : List Row :=
  companies.filterMap
    (fun c => (resolveCompany total_cash_usd ts prices fx c).1)

/-- The messages accumulated by step 1 of `allocate`, in emission order. -/
def step1Msgs (total_cash_usd : ℚ) (ts : ℤ)
    (prices : List (String × PFloat)) (fx : List (String × FxSeries))
    (companies : List Company) : List ServiceMessage :=
  companies.flatMap
    (fun c => (resolveCompany total_cash_usd ts prices fx c).2)

/-- Result of `allocate`, from `allocation.py` (`AllocationResult`).  The
`initial_purchase_df` of the source is a column projection of
`allocation_df` and is not carried separately. -/
structure AllocationResult where
  allocation_rows : List Row
  purchase_events : List PurchaseEvent
  initial_cash_usd : ℚ
  final_cash_usd : ℚ
  initial_price_usd : List (String × ℚ)
  messages : List ServiceMessage
deriving Repr

/-- `PortfolioAllocator.allocate` (`allocation.py` lines 30-206).
`business_days_index` is accepted and unused, exactly as in the source.
When every company is excluded in step 1 the empty result is returned with
both cash figures equal to `total_cash_usd`; otherwise the remaining cash
after the initial integer allocation (`caixa_inicial`) is distributed by
`distLoop` and reported as `initial_cash_usd`. -/
def allocate (companies : List Company) (total_cash_usd : ℚ)
    (business_days_index : List ℤ) (purchase_date : ℤ)
    (initial_prices_local : List (String × PFloat))
    (fx_series_by_currency : List (String × FxSeries)) : AllocationResult :=
  let rows := step1Rows total_cash_usd purchase_date initial_prices_local
      fx_series_by_currency companies
  let messages := step1Msgs total_cash_usd purchase_date initial_prices_local
      fx_series_by_currency companies
  let precos := rows.map (fun r => (r.ticker, r.preco_usd))
  if rows.isEmpty then
    { allocation_rows := rows, purchase_events := [],
      initial_cash_usd := total_cash_usd, final_cash_usd := total_cash_usd,
      initial_price_usd := precos, messages := messages }
  else
    let caixa_inicial := total_cash_usd - invested rows
    let final := distLoop (fuelBound caixa_inicial (minPrice rows))
      { rows := rows, caixa := caixa_inicial, eventos := [] }
    { allocation_rows := final.rows, purchase_events := final.eventos,
      initial_cash_usd := caixa_inicial, final_cash_usd := final.caixa,
      initial_price_usd := precos, messages := messages }

/-- The pipeline that feeds the allocator from the CSV snapshot: the price
map produced by `InitialPriceRepository.load_prices` is passed as
`initial_prices_local` to `PortfolioAllocator.allocate` and the message
lists of the two stages are accumulated in order. -/
def pipelineAllocate (companies : List Company)
    (csv : Option (List (String × PFloat))) (total_cash_usd : ℚ)
    (business_days_index : List ℤ) (purchase_date : ℤ)
    (fx_series_by_currency : List (String × FxSeries)) : AllocationResult :=
  let lp := load_prices companies csv
  let res := allocate companies total_cash_usd business_days_index purchase_date
    lp.1 fx_series_by_currency
  { res with messages := lp.2 ++ res.messages }

/-- Row with its mutable `Quantidade` field cleared; two rows with the same
`stripQty` image differ at most in the quantity mutated by the loop. -/
def Row.stripQty (r : Row) : Row := { r with quantidade := 0 }

/-- A loop state from which `distLoop` makes no further purchase: either the
cheapest price is out of reach of `caixa + EPS`, or no row is affordable, or
the selected candidate's gap is non-positive. -/
def Terminal (st : LoopState) : Prop :=
  ¬ (minPrice st.rows ≤ st.caixa + EPS) ∨
    pick st.caixa st.rows.enum = none ∨
    (∃ ir, pick st.caixa st.rows.enum = some ir ∧ gapOf ir.2 ≤ 0)

/-- Chained consistency of a purchase log starting from cash level `c`:
each event records the running cash before, debits its unit price, and its
gap decreases by the same price. -/
def chainFrom (c : ℚ) : List PurchaseEvent → Prop
  | [] => True
  | e :: rest =>
    e.cash_before_usd = c ∧
    e.cash_after_usd = e.cash_before_usd - e.unit_price_usd ∧
    e.gap_after_usd = e.gap_before_usd - e.unit_price_usd ∧
    chainFrom e.cash_after_usd rest

/-- Cash level after replaying a purchase log from cash level `c`. -/
def lastCash (c : ℚ) : List PurchaseEvent → ℚ
  | [] => c
  | e :: rest => lastCash e.cash_after_usd rest

/-! Generic list helpers. -/

theorem set_of_get? {α : Type} : ∀ (l : List α) (i : ℕ) (a : α),
    l.get? i = some a → l.set i a = l
  | [], _, _, h => by cases h
  | x :: xs, 0, a, h => by simp_all
  | x :: xs, i + 1, a, h => by
    simp only [List.get?_cons_succ] at h
    simp [set_of_get? xs i a h]

theorem sum_set_of_get? : ∀ (l : List ℚ) (i : ℕ) (a b : ℚ),
    l.get? i = some b → (l.set i a).sum = l.sum - b + a
  | [], _, _, _, h => by cases h
  | x :: xs, 0, a, b, h => by
    simp only [List.get?_cons_zero, Option.some.injEq] at h
    subst h; simp [List.sum_cons]; ring
  | x :: xs, i + 1, a, b, h => by
    simp only [List.get?_cons_succ] at h
    simp [List.sum_cons, sum_set_of_get? xs i a b h]; ring

theorem lookup_eq_none_of_forall {α β : Type} [BEq α] [LawfulBEq α] :
    ∀ (l : List (α × β)) (k : α), (∀ p ∈ l, p.1 ≠ k) → l.lookup k = none
  | [], _, _ => rfl
  | (a, b) :: xs, k, h => by
    have ha : a ≠ k := h (a, b) (List.mem_cons_self _ _)
    have : (k == a) = false := by
      simp [beq_eq_false_iff_ne]; exact fun e => ha e.symm
    simp only [List.lookup, this]
    exact lookup_eq_none_of_forall xs k (fun p hp => h p (List.mem_cons_of_mem _ hp))

theorem mem_of_lookup_eq_some {α β : Type} [BEq α] [LawfulBEq α] :
    ∀ {l : List (α × β)} {k : α} {v : β}, l.lookup k = some v → (k, v) ∈ l
  | [], _, _, h => by cases h
  | (a, b) :: xs, k, v, h => by
    by_cases hk : k == a
    · simp [List.lookup, hk] at h
      subst h
      have : k = a := by simpa using hk
      subst this; exact List.mem_cons_self _ _
    · simp only [List.lookup, Bool.not_eq_true] at h
      rw [Bool.not_eq_true] at hk
      simp only [hk] at h
      exact List.mem_cons_of_mem _ (mem_of_lookup_eq_some h)

theorem foldl_min_le_init : ∀ (ps : List ℚ) (p : ℚ), ps.foldl min p ≤ p
  | [], p => le_refl p
  | x :: xs, p => le_trans (foldl_min_le_init xs (min p x)) (min_le_left _ _)

theorem foldl_min_le_mem : ∀ (ps : List ℚ) (p x : ℚ), x ∈ ps → ps.foldl min p ≤ x
  | [], _, _, hx => by cases hx
  | y :: ys, p, x, hx => by
    rcases List.mem_cons.mp hx with h | h
    · subst h
      exact le_trans (foldl_min_le_init ys (min p x)) (min_le_right _ _)
    · exact foldl_min_le_mem ys (min p y) x h

theorem foldl_min_mem : ∀ (ps : List ℚ) (p : ℚ),
    ps.foldl min p = p ∨ ps.foldl min p ∈ ps
  | [], p => Or.inl rfl
  | x :: xs, p => by
    rcases foldl_min_mem xs (min p x) with h | h
    · rcases min_cases p x with ⟨hm, _⟩ | ⟨hm, _⟩
      · exact Or.inl (by rw [List.foldl_cons, h, hm])
      · exact Or.inr (by rw [List.foldl_cons, h, hm]; exact List.mem_cons_self _ _)
    · exact Or.inr (List.mem_cons_of_mem _ h)

/-! Lemmas about `minPrice`. -/

theorem minPrice_le {rows : List Row} {r : Row} (hr : r ∈ rows) :
    minPrice rows ≤ r.preco_usd := by
  have hmem : r.preco_usd ∈ rows.map Row.preco_usd := List.mem_map_of_mem _ hr
  unfold minPrice
  cases h : rows.map Row.preco_usd with
  | nil => rw [h] at hmem; cases hmem
  | cons p ps =>
    rw [h] at hmem
    rcases List.mem_cons.mp hmem with he | he
    · rw [he]; exact foldl_min_le_init ps p
    · exact foldl_min_le_mem ps p _ he

theorem minPrice_mem {rows : List Row} (h : rows ≠ []) :
    ∃ r ∈ rows, r.preco_usd = minPrice rows := by
  have hmem : minPrice rows ∈ rows.map Row.preco_usd := by
    unfold minPrice
    cases hm : rows.map Row.preco_usd with
    | nil => exact absurd (List.map_eq_nil_iff.mp hm) h
    | cons p ps =>
      show ps.foldl min p ∈ p :: ps
      rcases foldl_min_mem ps p with he | he
      · rw [he]; exact List.mem_cons_self _ _
      · exact List.mem_cons_of_mem _ he
  rcases List.mem_map.mp hmem with ⟨r, hr, he⟩
  exact ⟨r, hr, he⟩

/-! Lemmas about `pick`. -/

theorem pick_mem : ∀ {caixa : ℚ} {l : List (ℕ × Row)} {ir : ℕ × Row},
    pick caixa l = some ir → ir ∈ l := by
  intro caixa l
  induction l with
  | nil => intro ir h; cases h
  | cons p rest ih =>
    intro ir h
    unfold pick at h
    by_cases hp : p.2.preco_usd ≤ caixa + EPS
    · rw [if_pos hp] at h
      cases hrest : pick caixa rest with
      | none => rw [hrest] at h; cases h; exact List.mem_cons_self _ _
      | some best =>
        rw [hrest] at h
        dsimp only at h
        by_cases hb : gapOf best.2 > gapOf p.2 ∨
            (gapOf best.2 = gapOf p.2 ∧ best.2.preco_usd < p.2.preco_usd)
        · rw [if_pos hb] at h; cases h
          exact List.mem_cons_of_mem _ (ih hrest)
        · rw [if_neg hb] at h; cases h; exact List.mem_cons_self _ _
    · rw [if_neg hp] at h
      exact List.mem_cons_of_mem _ (ih h)

theorem pick_affordable : ∀ {caixa : ℚ} {l : List (ℕ × Row)} {ir : ℕ × Row},
    pick caixa l = some ir → ir.2.preco_usd ≤ caixa + EPS := by
  intro caixa l
  induction l with
  | nil => intro ir h; cases h
  | cons p rest ih =>
    intro ir h
    unfold pick at h
    by_cases hp : p.2.preco_usd ≤ caixa + EPS
    · rw [if_pos hp] at h
      cases hrest : pick caixa rest with
      | none => rw [hrest] at h; cases h; exact hp
      | some best =>
        rw [hrest] at h
        dsimp only at h
        by_cases hb : gapOf best.2 > gapOf p.2 ∨
            (gapOf best.2 = gapOf p.2 ∧ best.2.preco_usd < p.2.preco_usd)
        · rw [if_pos hb] at h; cases h; exact ih hrest
        · rw [if_neg hb] at h; cases h; exact hp
    · rw [if_neg hp] at h
      exact ih h

theorem pick_eq_none_iff {caixa : ℚ} {l : List (ℕ × Row)} :
    pick caixa l = none ↔ ∀ ir ∈ l, ¬ ir.2.preco_usd ≤ caixa + EPS := by
  induction l with
  | nil => simp [pick]
  | cons p rest ih =>
    constructor
    · intro h ir hir
      unfold pick at h
      by_cases hp : p.2.preco_usd ≤ caixa + EPS
      · rw [if_pos hp] at h
        cases hrest : pick caixa rest with
        | none => rw [hrest] at h; cases h
        | some best =>
          rw [hrest] at h
          dsimp only at h
          by_cases hb : gapOf best.2 > gapOf p.2 ∨
              (gapOf best.2 = gapOf p.2 ∧ best.2.preco_usd < p.2.preco_usd)
          · rw [if_pos hb] at h; cases h
          · rw [if_neg hb] at h; cases h
      · rw [if_neg hp] at h
        rcases List.mem_cons.mp hir with he | he
        · subst he; exact hp
        · exact (ih.mp h) ir he
    · intro h
      unfold pick
      rw [if_neg (h p (List.mem_cons_self _ _))]
      exact ih.mpr (fun ir hir => h ir (List.mem_cons_of_mem _ hir))

/-! Preservation of the immutable row fields through the loop. -/

theorem stripQty_update (r : Row) (n : ℤ) :
    Row.stripQty { r with quantidade := n } = Row.stripQty r := rfl

theorem enum_get? {l : List Row} {ir : ℕ × Row} (h : ir ∈ l.enum) :
    l.get? ir.1 = some ir.2 := by
  obtain ⟨i, r⟩ := ir
  exact List.mk_mem_enum_iff_get?.mp h

theorem map_strip_set {rows : List Row} {i : ℕ} {r : Row} (n : ℤ)
    (h : rows.get? i = some r) :
    (rows.set i { r with quantidade := n }).map Row.stripQty
      = rows.map Row.stripQty := by
  rw [List.map_set, stripQty_update]
  apply set_of_get?
  rw [List.get?_map, h]
  rfl

theorem distLoop_strip : ∀ (fuel : ℕ) (st : LoopState),
    ((distLoop fuel st).rows).map Row.stripQty = st.rows.map Row.stripQty := by
  intro fuel
  induction fuel with
  | zero => intro st; rfl
  | succ n ih =>
    intro st
    unfold distLoop
    by_cases hc : minPrice st.rows ≤ st.caixa + EPS
    · rw [if_pos hc]
      cases hp : pick st.caixa st.rows.enum with
      | none => rfl
      | some ir =>
        dsimp only
        by_cases hg : gapOf ir.2 ≤ 0
        · rw [if_pos hg]
        · rw [if_neg hg]
          rw [ih]
          exact map_strip_set _ (enum_get? (pick_mem hp))
    · rw [if_neg hc]

theorem map_of_stripEq {α : Type} (f : Row → α)
    (hf : ∀ r, f (Row.stripQty r) = f r) {l₁ l₂ : List Row}
    (h : l₁.map Row.stripQty = l₂.map Row.stripQty) : l₁.map f = l₂.map f := by
  have h1 : l₁.map f = (l₁.map Row.stripQty).map f := by
    rw [List.map_map]; exact (List.map_congr_left (fun r _ => (hf r).symm))
  have h2 : l₂.map f = (l₂.map Row.stripQty).map f := by
    rw [List.map_map]; exact (List.map_congr_left (fun r _ => (hf r).symm))
  rw [h1, h2, h]

theorem distLoop_map_preco (fuel : ℕ) (st : LoopState) :
    ((distLoop fuel st).rows).map Row.preco_usd = st.rows.map Row.preco_usd :=
  map_of_stripEq Row.preco_usd (fun _ => rfl) (distLoop_strip fuel st)

theorem distLoop_minPrice (fuel : ℕ) (st : LoopState) :
    minPrice (distLoop fuel st).rows = minPrice st.rows := by
  unfold minPrice
  rw [distLoop_map_preco]

theorem distLoop_map_ticker (fuel : ℕ) (st : LoopState) :
    ((distLoop fuel st).rows).map Row.ticker = st.rows.map Row.ticker :=
  map_of_stripEq Row.ticker (fun _ => rfl) (distLoop_strip fuel st)

theorem map_preco_set {rows : List Row} {i : ℕ} {r : Row} (n : ℤ)
    (h : rows.get? i = some r) :
    ((rows.set i { r with quantidade := n }).map Row.preco_usd)
      = rows.map Row.preco_usd :=
  map_of_stripEq Row.preco_usd (fun _ => rfl) (map_strip_set n h)

theorem minPrice_set {rows : List Row} {i : ℕ} {r : Row} (n : ℤ)
    (h : rows.get? i = some r) :
    minPrice (rows.set i { r with quantidade := n }) = minPrice rows := by
  unfold minPrice
  rw [map_preco_set n h]

/-! Cash conservation through the loop. -/

theorem invested_set {rows : List Row} {i : ℕ} {r : Row}
    (h : rows.get? i = some r) :
    invested (rows.set i { r with quantidade := r.quantidade + 1 })
      = invested rows + r.preco_usd := by
  unfold invested
  rw [List.map_set]
  have hget : (rows.map (fun r => (r.quantidade : ℚ) * r.preco_usd)).get? i
      = some ((r.quantidade : ℚ) * r.preco_usd) := by
    rw [List.get?_map, h]; rfl
  rw [sum_set_of_get? _ i _ _ hget]
  push_cast
  ring

theorem distLoop_invested : ∀ (fuel : ℕ) (st : LoopState),
    invested (distLoop fuel st).rows + (distLoop fuel st).caixa
      = invested st.rows + st.caixa := by
  intro fuel
  induction fuel with
  | zero => intro st; rfl
  | succ n ih =>
    intro st
    unfold distLoop
    by_cases hc : minPrice st.rows ≤ st.caixa + EPS
    · rw [if_pos hc]
      cases hp : pick st.caixa st.rows.enum with
      | none => rfl
      | some ir =>
        dsimp only
        by_cases hg : gapOf ir.2 ≤ 0
        · rw [if_pos hg]
        · rw [if_neg hg]
          rw [ih]
          dsimp only
          rw [invested_set (enum_get? (pick_mem hp))]
          ring
    · rw [if_neg hc]

/-! Chain consistency of the purchase log through the loop. -/

theorem lastCash_append (e : PurchaseEvent) :
    ∀ (l : List PurchaseEvent) (c : ℚ), lastCash c (l ++ [e]) = e.cash_after_usd
  | [], _ => rfl
  | f :: fs, c => by
    simp only [List.cons_append, lastCash]
    exact lastCash_append e fs _

theorem chainFrom_append (e : PurchaseEvent) :
    ∀ (l : List PurchaseEvent) (c : ℚ), chainFrom c l →
    e.cash_before_usd = lastCash c l →
    e.cash_after_usd = e.cash_before_usd - e.unit_price_usd →
    e.gap_after_usd = e.gap_before_usd - e.unit_price_usd →
    chainFrom c (l ++ [e])
  | [], c, _, hb, ha, hg => ⟨hb, ha, hg, trivial⟩
  | f :: fs, c, hch, hb, ha, hg => by
    obtain ⟨h1, h2, h3, h4⟩ := hch
    exact ⟨h1, h2, h3, chainFrom_append e fs _ h4 hb ha hg⟩

theorem distLoop_chain : ∀ (fuel : ℕ) (st : LoopState) (c0 : ℚ),
    chainFrom c0 st.eventos → lastCash c0 st.eventos = st.caixa →
    chainFrom c0 (distLoop fuel st).eventos ∧
      lastCash c0 (distLoop fuel st).eventos = (distLoop fuel st).caixa := by
  intro fuel
  induction fuel with
  | zero => intro st c0 h1 h2; exact ⟨h1, h2⟩
  | succ n ih =>
    intro st c0 h1 h2
    unfold distLoop
    by_cases hc : minPrice st.rows ≤ st.caixa + EPS
    · rw [if_pos hc]
      cases hp : pick st.caixa st.rows.enum with
      | none => exact ⟨h1, h2⟩
      | some ir =>
        dsimp only
        by_cases hg : gapOf ir.2 ≤ 0
        · rw [if_pos hg]; exact ⟨h1, h2⟩
        · rw [if_neg hg]
          apply ih
          · apply chainFrom_append _ _ _ h1
            · rw [h2]; rfl
            · rfl
            · show ir.2.alvo_usd - ((ir.2.quantidade : ℚ) + 1) * ir.2.preco_usd
                = gapOf ir.2 - ir.2.preco_usd
              unfold gapOf
              ring
          · rw [lastCash_append]
            rfl
    · rw [if_neg hc]
      exact ⟨h1, h2⟩

/-! Every purchase event references a row of the allocation. -/

theorem distLoop_events : ∀ (fuel : ℕ) (st : LoopState),
    (∀ e ∈ st.eventos, e.company.ticker ∈ st.rows.map Row.ticker) →
    ∀ e ∈ (distLoop fuel st).eventos,
      e.company.ticker ∈ st.rows.map Row.ticker := by
  intro fuel
  induction fuel with
  | zero => intro st h; exact h
  | succ n ih =>
    intro st h
    unfold distLoop
    by_cases hc : minPrice st.rows ≤ st.caixa + EPS
    · rw [if_pos hc]
      cases hp : pick st.caixa st.rows.enum with
      | none => exact h
      | some ir =>
        dsimp only
        by_cases hg : gapOf ir.2 ≤ 0
        · rw [if_pos hg]; exact h
        · rw [if_neg hg]
          have hticker : (mkEvent ir.2 st.caixa).company.ticker
              ∈ st.rows.map Row.ticker := by
            apply List.mem_map_of_mem
            exact List.get?_mem (enum_get? (pick_mem hp))
          have hmap : (st.rows.set ir.1
                { ir.2 with quantidade := ir.2.quantidade + 1 }).map Row.ticker
              = st.rows.map Row.ticker :=
            map_of_stripEq Row.ticker (fun _ => rfl)
              (map_strip_set _ (enum_get? (pick_mem hp)))
          intro e he
          have := ih _ (fun e' he' => ?_) e he
          · rw [hmap] at this; exact this
          · dsimp only at he'
            rcases List.mem_append.mp he' with hold | hnew
            · rw [hmap]; exact h e' hold
            · rw [hmap]
              rcases List.mem_singleton.mp hnew with rfl
              exact hticker
    · rw [if_neg hc]
      exact h

/-! Termination: with enough fuel the loop reaches a genuine exit state. -/

theorem distLoop_of_terminal (fuel : ℕ) (st : LoopState) (h : Terminal st) :
    distLoop fuel st = st := by
  cases fuel with
  | zero => rfl
  | succ n =>
    unfold distLoop
    rcases h with h | h | ⟨ir, hpk, hg⟩
    · rw [if_neg h]
    · by_cases hc : minPrice st.rows ≤ st.caixa + EPS
      · rw [if_pos hc, h]
      · rw [if_neg hc]
    · by_cases hc : minPrice st.rows ≤ st.caixa + EPS
      · rw [if_pos hc, hpk]
        dsimp only
        rw [if_pos hg]
      · rw [if_neg hc]

theorem distLoop_terminal : ∀ (fuel : ℕ) (st : LoopState),
    0 < minPrice st.rows →
    ⌈(st.caixa + EPS) / minPrice st.rows⌉ ≤ (fuel : ℤ) →
    Terminal (distLoop fuel st) := by
  intro fuel
  induction fuel with
  | zero =>
    intro st hm hf
    show Terminal st
    left
    intro hc
    have h1 : (st.caixa + EPS) / minPrice st.rows ≤ ((0 : ℤ) : ℚ) := by
      calc (st.caixa + EPS) / minPrice st.rows
          ≤ (⌈(st.caixa + EPS) / minPrice st.rows⌉ : ℚ) := Int.le_ceil _
        _ ≤ ((0 : ℤ) : ℚ) := by exact_mod_cast hf
    have h2 : st.caixa + EPS ≤ 0 := by
      by_contra hpos
      push_neg at hpos
      have := div_pos hpos hm
      simp only [Int.cast_zero] at h1
      linarith
    linarith
  | succ n ih =>
    intro st hm hf
    unfold distLoop
    by_cases hc : minPrice st.rows ≤ st.caixa + EPS
    · rw [if_pos hc]
      cases hp : pick st.caixa st.rows.enum with
      | none => right; left; exact hp
      | some ir =>
        dsimp only
        by_cases hg : gapOf ir.2 ≤ 0
        · rw [if_pos hg]
          right; right; exact ⟨ir, hp, hg⟩
        · rw [if_neg hg]
          set m := minPrice st.rows with hmdef
          have hr : ir.2 ∈ st.rows := List.get?_mem (enum_get? (pick_mem hp))
          have hmp : m ≤ ir.2.preco_usd := minPrice_le hr
          have hget := enum_get? (pick_mem hp)
          have hmin' : minPrice (st.rows.set ir.1
              { ir.2 with quantidade := ir.2.quantidade + 1 }) = m :=
            minPrice_set _ hget
          apply ih
          · rw [hmin']; exact hm
          · rw [hmin']
            dsimp only
            have hne : m ≠ 0 := ne_of_gt hm
            have heq : (st.caixa + EPS - m) / m = (st.caixa + EPS) / m - 1 := by
              rw [sub_div, div_self hne]
            have hstep : (st.caixa - ir.2.preco_usd + EPS) / m
                ≤ (st.caixa + EPS) / m - 1 := by
              rw [← heq]
              exact (div_le_div_right hm).mpr (by linarith)
            have hceil : ⌈(st.caixa - ir.2.preco_usd + EPS) / m⌉
                ≤ ⌈(st.caixa + EPS) / m⌉ - 1 := by
              have := Int.ceil_le_ceil hstep
              rwa [show ((st.caixa + EPS) / m - 1 : ℚ)
                  = (st.caixa + EPS) / m - ((1 : ℤ) : ℚ) by push_cast; ring,
                Int.ceil_sub_int] at this
            have hcast : ((n + 1 : ℕ) : ℤ) = (n : ℤ) + 1 := by push_cast; ring
            rw [hcast] at hf
            linarith
    · rw [if_neg hc]
      left; exact hc

/-! Lemmas about step 1 (`resolveCompany`, `step1Rows`, `step1Msgs`). -/

theorem resolve_some_spec {tc : ℚ} {ts : ℤ} {pr : List (String × PFloat)}
    {fx : List (String × FxSeries)} {c : Company} {r : Row}
    (h : (resolveCompany tc ts pr fx c).1 = some r) :
    r.ticker = c.ticker ∧ r.peso = c.target_weight ∧ 0 < r.preco_usd ∧
    r.alvo_usd = tc * c.target_weight / 100 ∧
    r.qtd_exata = r.alvo_usd / r.preco_usd ∧
    r.quantidade = pyTrunc r.qtd_exata ∧
    r.residuo = r.qtd_exata - (pyTrunc r.qtd_exata : ℚ) := by
  unfold resolveCompany at h
  cases hl : pr.lookup c.ticker with
  | none => rw [hl] at h; cases h
  | some pl =>
    rw [hl] at h
    cases pl with
    | nan => cases h
    | val l =>
      simp only at h
      by_cases hneg : l * (fxRateOf ts fx c).1 ≤ 0
      · rw [if_pos hneg] at h; cases h
      · rw [if_neg hneg] at h
        simp only at h
        injection h with h
        subst h
        exact ⟨rfl, rfl, lt_of_not_le hneg, rfl, rfl, rfl, rfl⟩

theorem resolve_noprice {tc : ℚ} {ts : ℤ} {pr : List (String × PFloat)}
    {fx : List (String × FxSeries)} {c : Company}
    (h : pr.lookup c.ticker = none) :
    resolveCompany tc ts pr fx c = (none, [⟨.ERROR, .noInitialPrice c.ticker⟩]) := by
  unfold resolveCompany
  rw [h]

theorem resolve_invalid {tc : ℚ} {ts : ℤ} {pr : List (String × PFloat)}
    {fx : List (String × FxSeries)} {c : Company} {pl : PFloat}
    (hl : pr.lookup c.ticker = some pl)
    (hinv : pyInvalid (pfMul pl (.val (fxRateOf ts fx c).1)) = true) :
    (resolveCompany tc ts pr fx c).1 = none ∧
    ⟨.ERROR, .invalidPrice c.ticker⟩ ∈ (resolveCompany tc ts pr fx c).2 := by
  unfold resolveCompany
  rw [hl]
  cases pl with
  | nan =>
    exact ⟨rfl, List.mem_append.mpr (Or.inr (List.mem_singleton.mpr rfl))⟩
  | val l =>
    simp only [pfMul, pyInvalid, decide_eq_true_eq] at hinv
    simp only
    rw [if_pos hinv]
    exact ⟨rfl, List.mem_append.mpr (Or.inr (List.mem_singleton.mpr rfl))⟩

theorem step1Rows_map_ticker (tc : ℚ) (ts : ℤ) (pr : List (String × PFloat))
    (fx : List (String × FxSeries)) :
    ∀ (companies : List Company),
    (step1Rows tc ts pr fx companies).map Row.ticker
      = (companies.filter
          (fun c => ((resolveCompany tc ts pr fx c).1).isSome)).map Company.ticker
  | [] => rfl
  | c :: cs => by
    unfold step1Rows List.filterMap
    cases hr : (resolveCompany tc ts pr fx c).1 with
    | none =>
      rw [List.filter_cons_of_neg (by simp [hr])]
      exact step1Rows_map_ticker tc ts pr fx cs
    | some r =>
      rw [List.filter_cons_of_pos (by simp [hr])]
      simp only [List.map_cons]
      rw [(resolve_some_spec hr).1]
      exact congrArg _ (step1Rows_map_ticker tc ts pr fx cs)

theorem step1Rows_mem {tc : ℚ} {ts : ℤ} {pr : List (String × PFloat)}
    {fx : List (String × FxSeries)} {companies : List Company} {r : Row} :
    r ∈ step1Rows tc ts pr fx companies ↔
      ∃ c ∈ companies, (resolveCompany tc ts pr fx c).1 = some r :=
  List.mem_filterMap

theorem step1Rows_pos {tc : ℚ} {ts : ℤ} {pr : List (String × PFloat)}
    {fx : List (String × FxSeries)} {companies : List Company} {r : Row}
    (hr : r ∈ step1Rows tc ts pr fx companies) : 0 < r.preco_usd := by
  rcases step1Rows_mem.mp hr with ⟨c, _, hc⟩
  exact (resolve_some_spec hc).2.2.1

theorem step1Msgs_mem {tc : ℚ} {ts : ℤ} {pr : List (String × PFloat)}
    {fx : List (String × FxSeries)} {companies : List Company} {c : Company}
    {m : ServiceMessage} (hc : c ∈ companies)
    (hm : m ∈ (resolveCompany tc ts pr fx c).2) :
    m ∈ step1Msgs tc ts pr fx companies :=
  List.mem_flatMap.mpr ⟨c, hc, hm⟩

/-! Lemmas about `allocate` as a whole. -/

theorem allocate_rows_strip (cs : List Company) (tc : ℚ) (idx : List ℤ) (ts : ℤ)
    (pr : List (String × PFloat)) (fx : List (String × FxSeries)) :
    ((allocate cs tc idx ts pr fx).allocation_rows).map Row.stripQty
      = (step1Rows tc ts pr fx cs).map Row.stripQty := by
  simp only [allocate]
  by_cases he : (step1Rows tc ts pr fx cs).isEmpty
  · rw [if_pos he]
  · rw [if_neg he]
    exact distLoop_strip _ _

theorem allocate_messages (cs : List Company) (tc : ℚ) (idx : List ℤ) (ts : ℤ)
    (pr : List (String × PFloat)) (fx : List (String × FxSeries)) :
    (allocate cs tc idx ts pr fx).messages = step1Msgs tc ts pr fx cs := by
  simp only [allocate]
  by_cases he : (step1Rows tc ts pr fx cs).isEmpty
  · rw [if_pos he]
  · rw [if_neg he]

theorem allocate_initial_price (cs : List Company) (tc : ℚ) (idx : List ℤ) (ts : ℤ)
    (pr : List (String × PFloat)) (fx : List (String × FxSeries)) :
    (allocate cs tc idx ts pr fx).initial_price_usd
      = (step1Rows tc ts pr fx cs).map (fun r => (r.ticker, r.preco_usd)) := by
  simp only [allocate]
  by_cases he : (step1Rows tc ts pr fx cs).isEmpty
  · rw [if_pos he]
  · rw [if_neg he]

theorem allocate_rows_tickers (cs : List Company) (tc : ℚ) (idx : List ℤ) (ts : ℤ)
    (pr : List (String × PFloat)) (fx : List (String × FxSeries)) :
    ((allocate cs tc idx ts pr fx).allocation_rows).map Row.ticker
      = (cs.filter
          (fun c => ((resolveCompany tc ts pr fx c).1).isSome)).map Company.ticker := by
  rw [map_of_stripEq Row.ticker (fun _ => rfl) (allocate_rows_strip cs tc idx ts pr fx)]
  exact step1Rows_map_ticker tc ts pr fx cs

theorem allocate_events_tickers (cs : List Company) (tc : ℚ) (idx : List ℤ) (ts : ℤ)
    (pr : List (String × PFloat)) (fx : List (String × FxSeries)) :
    ∀ e ∈ (allocate cs tc idx ts pr fx).purchase_events,
      e.company.ticker ∈ (step1Rows tc ts pr fx cs).map Row.ticker := by
  simp only [allocate]
  by_cases he : (step1Rows tc ts pr fx cs).isEmpty
  · rw [if_pos he]
    intro e hee
    cases hee
  · rw [if_neg he]
    intro e hee
    exact distLoop_events _ _ (fun e' he' => by cases he') e hee

theorem allocate_nonempty_iff (cs : List Company) (tc : ℚ) (idx : List ℤ) (ts : ℤ)
    (pr : List (String × PFloat)) (fx : List (String × FxSeries)) :
    (allocate cs tc idx ts pr fx).allocation_rows = []
      ↔ step1Rows tc ts pr fx cs = [] := by
  have h := allocate_rows_strip cs tc idx ts pr fx
  constructor
  · intro he
    rw [he] at h
    exact List.map_eq_nil_iff.mp h.symm
  · intro he
    rw [he] at h
    exact List.map_eq_nil_iff.mp h

theorem allocate_terminal (cs : List Company) (tc : ℚ) (idx : List ℤ) (ts : ℤ)
    (pr : List (String × PFloat)) (fx : List (String × FxSeries))
    (hne : step1Rows tc ts pr fx cs ≠ []) :
    Terminal ⟨(allocate cs tc idx ts pr fx).allocation_rows,
              (allocate cs tc idx ts pr fx).final_cash_usd,
              (allocate cs tc idx ts pr fx).purchase_events⟩ := by
  have hmin : 0 < minPrice (step1Rows tc ts pr fx cs) := by
    rcases minPrice_mem hne with ⟨r, hr, he⟩
    rw [← he]
    exact step1Rows_pos hr
  simp only [allocate]
  rw [if_neg (by simpa [List.isEmpty_iff] using hne)]
  have hterm := distLoop_terminal
    (fuelBound (tc - invested (step1Rows tc ts pr fx cs))
      (minPrice (step1Rows tc ts pr fx cs)))
    ⟨step1Rows tc ts pr fx cs, tc - invested (step1Rows tc ts pr fx cs), []⟩
    hmin ?_
  · exact hterm
  · unfold fuelBound
    have h1 := Int.self_le_toNat
      ⌈(tc - invested (step1Rows tc ts pr fx cs) + EPS)
        / minPrice (step1Rows tc ts pr fx cs)⌉
    have h2 : ((⌈(tc - invested (step1Rows tc ts pr fx cs) + EPS)
        / minPrice (step1Rows tc ts pr fx cs)⌉.toNat + 1 : ℕ) : ℤ)
        = (⌈(tc - invested (step1Rows tc ts pr fx cs) + EPS)
        / minPrice (step1Rows tc ts pr fx cs)⌉.toNat : ℤ) + 1 := by
      push_cast; ring
    rw [h2]
    linarith

theorem allocate_conservation (cs : List Company) (tc : ℚ) (idx : List ℤ) (ts : ℤ)
    (pr : List (String × PFloat)) (fx : List (String × FxSeries)) :
    invested (allocate cs tc idx ts pr fx).allocation_rows
      + (allocate cs tc idx ts pr fx).final_cash_usd = tc := by
  simp only [allocate]
  by_cases he : (step1Rows tc ts pr fx cs).isEmpty
  · rw [if_pos he]
    have : step1Rows tc ts pr fx cs = [] := by simpa [List.isEmpty_iff] using he
    simp [this, invested]
  · rw [if_neg he]
    have h := distLoop_invested
      (fuelBound (tc - invested (step1Rows tc ts pr fx cs))
        (minPrice (step1Rows tc ts pr fx cs)))
      ⟨step1Rows tc ts pr fx cs, tc - invested (step1Rows tc ts pr fx cs), []⟩
    dsimp only at h ⊢
    rw [h]
    ring

/-! Lemmas about asof resolution on a date-sorted series (claim C5). -/

theorem getLast?_of_max : ∀ {l : FxSeries},
    l.Pairwise (fun a b => a.1 < b.1) → ∀ {p : ℤ × Option ℚ}, p ∈ l →
    (∀ q ∈ l, q.1 ≤ p.1) → l.getLast? = some p
  | [], _, p, hp, _ => absurd hp (List.not_mem_nil p)
  | [x], _, p, hp, _ => by
    rcases List.mem_singleton.mp hp with rfl; rfl
  | x :: y :: ys, hs, p, hp, hmax => by
    rw [List.getLast?_cons_cons]
    have hxy : x.1 < y.1 :=
      (List.pairwise_cons.mp hs).1 y (List.mem_cons_self _ _)
    rcases List.mem_cons.mp hp with rfl | hp'
    · exact absurd (hmax y (List.mem_cons_of_mem _ (List.mem_cons_self _ _)))
        (not_le.mpr hxy)
    · exact getLast?_of_max (List.pairwise_cons.mp hs).2 hp'
        (fun q hq => hmax q (List.mem_cons_of_mem _ hq))

theorem max_of_getLast? : ∀ {l : FxSeries},
    l.Pairwise (fun a b => a.1 < b.1) → ∀ {p : ℤ × Option ℚ},
    l.getLast? = some p → ∀ q ∈ l, q.1 ≤ p.1
  | [], _, p, h => by cases h
  | [x], _, p, h => by
    intro q hq
    rcases List.mem_singleton.mp hq with rfl
    have hx : ([q] : FxSeries).getLast? = some q := rfl
    rw [hx] at h
    injection h with h
    exact le_of_eq (congrArg Prod.fst h)
  | x :: y :: ys, hs, p, h => by
    rw [List.getLast?_cons_cons] at h
    intro q hq
    have ih := max_of_getLast? (List.pairwise_cons.mp hs).2 h
    rcases List.mem_cons.mp hq with rfl | hq'
    · have hxy : q.1 < y.1 :=
        (List.pairwise_cons.mp hs).1 y (List.mem_cons_self _ _)
      exact le_trans hxy.le (ih y (List.mem_cons_self _ _))
    · exact ih q hq'

theorem getLast?_cons_getD {α : Type} (a : α) (l : List α) :
    (a :: l).getLast? = some (l.getLast?.getD a) := by
  induction l generalizing a with
  | nil => rfl
  | cons b bs ih =>
    rw [List.getLast?_cons_cons, ih b]
    cases hbs : bs.getLast? with
    | none => rfl
    | some c => rfl

theorem filterMap_snd_getLast? : ∀ (l : FxSeries),
    (l.filterMap Prod.snd).getLast?
      = ((l.filter (fun p => p.2.isSome)).getLast?).bind Prod.snd
  | [] => rfl
  | (d, v) :: xs => by
    cases v with
    | none =>
      rw [show ((d, none) :: xs : FxSeries).filterMap Prod.snd
          = xs.filterMap Prod.snd from rfl]
      rw [List.filter_cons_of_neg (by simp)]
      exact filterMap_snd_getLast? xs
    | some w =>
      rw [show ((d, some w) :: xs : FxSeries).filterMap Prod.snd
          = w :: xs.filterMap Prod.snd from rfl]
      rw [List.filter_cons_of_pos (by simp)]
      rw [getLast?_cons_getD, getLast?_cons_getD]
      cases hx : (xs.filter (fun p => p.2.isSome)).getLast? with
      | none =>
        have : (xs.filterMap Prod.snd).getLast? = none := by
          rw [filterMap_snd_getLast? xs, hx]; rfl
        rw [this]
        rfl
      | some q =>
        have hqmem : q ∈ xs.filter (fun p => p.2.isSome) :=
          List.mem_of_mem_getLast? (by rw [hx]; rfl)
        have hqs : q.2.isSome := (List.mem_filter.mp hqmem).2
        rcases Option.isSome_iff_exists.mp hqs with ⟨u, hu⟩
        have : (xs.filterMap Prod.snd).getLast? = some u := by
          rw [filterMap_snd_getLast? xs, hx]
          simp [hu]
        rw [this]
        simp [hu]

/-! Value provenance through the fetch pipeline (claim C7). -/

theorem mem_insertByDate {p x : ℤ × Option ℚ} : ∀ {l : FxSeries},
    x ∈ insertByDate p l → x = p ∨ x ∈ l
  | [], h => Or.inl (List.mem_singleton.mp h)
  | q :: qs, h => by
    unfold insertByDate at h
    by_cases hle : p.1 ≤ q.1
    · rw [if_pos hle] at h
      rcases List.mem_cons.mp h with rfl | h'
      · exact Or.inl rfl
      · exact Or.inr h'
    · rw [if_neg hle] at h
      rcases List.mem_cons.mp h with rfl | h'
      · exact Or.inr (List.mem_cons_self _ _)
      · rcases mem_insertByDate h' with he | hm
        · exact Or.inl he
        · exact Or.inr (List.mem_cons_of_mem _ hm)

theorem mem_sortByDate {x : ℤ × Option ℚ} : ∀ {l : FxSeries},
    x ∈ sortByDate l → x ∈ l
  | [], h => h
  | p :: ps, h => by
    unfold sortByDate at h
    rcases mem_insertByDate h with rfl | hm
    · exact List.mem_cons_self _ _
    · exact List.mem_cons_of_mem _ (mem_sortByDate hm)

theorem mem_reindexOn {index : List ℤ} {s : FxSeries} {d : ℤ} {v : ℚ}
    (h : (d, some v) ∈ reindexOn index s) : (d, some v) ∈ s := by
  rcases List.mem_map.mp h with ⟨d', _, he⟩
  have hd : d' = d := congrArg Prod.fst he
  have hv : (s.lookup d').join = some v := congrArg Prod.snd he
  have hw : s.lookup d' = some (some v) := Option.join_eq_some.mp hv
  subst hd
  exact mem_of_lookup_eq_some hw

theorem ffillAux_vals : ∀ (carry : Option ℚ) (l : FxSeries) {d : ℤ} {v : ℚ},
    (d, some v) ∈ ffillAux carry l → carry = some v ∨ ∃ d', (d', some v) ∈ l
  | _, [], _, _, h => absurd h (List.not_mem_nil _)
  | carry, p :: ps, d, v, h => by
    cases hp2 : p.2 with
    | some w =>
      rw [ffillAux, hp2] at h
      rcases List.mem_cons.mp h with he | h'
      · have h2 : some v = some w := congrArg Prod.snd he
        injection h2 with h2
        subst h2
        exact Or.inr ⟨p.1, by rw [← hp2]; exact List.mem_cons_self _ _⟩
      · rcases ffillAux_vals (some w) ps h' with he | ⟨d', hd'⟩
        · injection he with he
          subst he
          exact Or.inr ⟨p.1, by rw [← hp2]; exact List.mem_cons_self _ _⟩
        · exact Or.inr ⟨d', List.mem_cons_of_mem _ hd'⟩
    | none =>
      rw [ffillAux, hp2] at h
      rcases List.mem_cons.mp h with he | h'
      · exact Or.inl (congrArg Prod.snd he).symm
      · rcases ffillAux_vals carry ps h' with he | ⟨d', hd'⟩
        · exact Or.inl he
        · exact Or.inr ⟨d', List.mem_cons_of_mem _ hd'⟩

theorem firstSome_vals {s : FxSeries} {v : ℚ} (h : firstSome s = some v) :
    ∃ d', (d', some v) ∈ s := by
  unfold firstSome at h
  have hmem : v ∈ s.filterMap Prod.snd :=
    List.mem_of_mem_head? (by rw [h]; rfl)
  rcases List.mem_filterMap.mp hmem with ⟨p, hp, he⟩
  rcases p with ⟨pd, pv⟩
  dsimp only at he
  subst he
  exact ⟨pd, hp⟩

theorem bfill_vals : ∀ (l : FxSeries) {d : ℤ} {v : ℚ},
    (d, some v) ∈ bfill l → ∃ d', (d', some v) ∈ l
  | [], _, _, h => absurd h (List.not_mem_nil _)
  | p :: ps, d, v, h => by
    cases hp2 : p.2 with
    | some w =>
      rw [bfill, hp2] at h
      dsimp only at h
      rcases List.mem_cons.mp h with he | h'
      · have h2 : some v = some w := congrArg Prod.snd he
        injection h2 with h2
        subst h2
        exact ⟨p.1, by rw [← hp2]; exact List.mem_cons_self _ _⟩
      · rcases bfill_vals ps h' with ⟨d', hd'⟩
        exact ⟨d', List.mem_cons_of_mem _ hd'⟩
    | none =>
      rw [bfill, hp2] at h
      dsimp only at h
      rcases List.mem_cons.mp h with he | h'
      · have hv : firstSome (bfill ps) = some v := (congrArg Prod.snd he).symm
        rcases firstSome_vals hv with ⟨d', hd'⟩
        rcases bfill_vals ps hd' with ⟨d'', hd''⟩
        exact ⟨d'', List.mem_cons_of_mem _ hd''⟩
      · rcases bfill_vals ps h' with ⟨d', hd'⟩
        exact ⟨d', List.mem_cons_of_mem _ hd'⟩

theorem invertQuotes_vals {inv : Bool} {s : FxSeries} {d : ℤ} {v : ℚ}
    (h : (d, some v) ∈ invertQuotes inv s) :
    ∃ w, (d, some w) ∈ s ∧ v = if inv then 1 / w else w := by
  cases inv with
  | false => exact ⟨v, h, rfl⟩
  | true =>
    unfold invertQuotes at h
    rw [if_pos rfl] at h
    rcases List.mem_map.mp h with ⟨p, hp, he⟩
    have hd : p.1 = d := congrArg Prod.fst he
    have hv : p.2.map (fun v => 1 / v) = some v := congrArg Prod.snd he
    rcases Option.map_eq_some'.mp hv with ⟨w, hw, hwv⟩
    refine ⟨w, ?_, by rw [if_pos rfl, hwv]⟩
    rw [← hd, ← hw]
    exact hp

theorem sanitizeQuotes_vals {closes : List (ℤ × ℚ)} {d : ℤ} {w : ℚ}
    (h : (d, some w) ∈ sanitizeQuotes closes) :
    ∃ q ∈ closes, q.2 ≠ 0 ∧ w = q.2 ∧ d = q.1 := by
  rcases List.mem_map.mp h with ⟨q, hq, he⟩
  by_cases h0 : q.2 = 0
  · rw [if_pos h0] at he
    exact absurd (congrArg Prod.snd he) (by simp)
  · rw [if_neg h0] at he
    have hd : q.1 = d := congrArg Prod.fst he
    have hw : some q.2 = some w := congrArg Prod.snd he
    injection hw with hw
    exact ⟨q, hq, h0, hw.symm, hd.symm⟩

theorem constSeries_vals {index : List ℤ} {d : ℤ} {v : ℚ}
    (h : (d, some v) ∈ constSeries index) : v = 1 := by
  rcases List.mem_map.mp h with ⟨_, _, he⟩
  have := congrArg Prod.snd he
  injection this with this
  exact this.symm

/-! Lemmas about `load_series` (claim C8). -/

theorem fetch_msgs_no_pair (cur cur' : String) (inv : Bool) (index : List ℤ)
    (hist : Except String (List (ℤ × ℚ))) :
    ((fetchCurrencySeries cur' inv index hist).2).countP
      (fun m => m = ⟨.WARNING, .noPairConfig cur⟩) = 0 := by
  unfold fetchCurrencySeries
  cases hist with
  | error e => rfl
  | ok closes =>
    dsimp only
    by_cases h1 : closes.isEmpty
    · rw [if_pos h1]
      rfl
    · rw [if_neg h1]
      by_cases h2 : allMissing (ffill (reindexOn index (sortByDate
          (invertQuotes inv (sanitizeQuotes closes)))))
      · rw [if_pos h2]
        rfl
      · rw [if_neg h2]
        rfl

theorem load_series_warn_zero (pc : List (String × CurrencyPairConfig))
    (f : String → Except String (List (ℤ × ℚ))) (idx : List ℤ) (cur : String) :
    ∀ currencies : List String, cur ∉ currencies →
    ((load_series pc f currencies idx).messages).countP
      (fun m => m = ⟨.WARNING, .noPairConfig cur⟩) = 0
  | [], _ => rfl
  | c :: rest, hnm => by
    have hne : cur ≠ c := fun he => hnm (he ▸ List.mem_cons_self _ _)
    have hrest : cur ∉ rest := fun hm => hnm (List.mem_cons_of_mem _ hm)
    unfold load_series
    by_cases hc : c = "USD"
    · rw [if_pos hc]
      exact load_series_warn_zero pc f idx cur rest hrest
    · rw [if_neg hc]
      cases hcfg : (pc.lookup c).bind (fun cfg => cfg.symbol) with
      | none =>
        dsimp only
        rw [List.countP_cons]
        have hne' : ¬ ((⟨.WARNING, .noPairConfig c⟩ : ServiceMessage)
            = ⟨.WARNING, .noPairConfig cur⟩) := by
          intro he
          injection he with _ h2
          injection h2 with h3
          exact hne h3.symm
        rw [decide_eq_false hne']
        simp only [Bool.false_eq_true, if_false, Nat.add_zero]
        exact load_series_warn_zero pc f idx cur rest hrest
      | some sym =>
        dsimp only
        rw [List.countP_append, fetch_msgs_no_pair,
          load_series_warn_zero pc f idx cur rest hrest]

theorem load_series_lookup_isSome (pc : List (String × CurrencyPairConfig))
    (f : String → Except String (List (ℤ × ℚ))) (idx : List ℤ) :
    ∀ (currencies : List String) (cur' : String), cur' ∈ currencies →
    (((load_series pc f currencies idx).series_by_currency).lookup cur').isSome
  | [], _, h => absurd h (List.not_mem_nil _)
  | c :: rest, cur', h => by
    unfold load_series
    by_cases hc : c = "USD"
    · rw [if_pos hc]
      by_cases he : cur' = c
      · subst he; simp [List.lookup]
      · rcases List.mem_cons.mp h with rfl | hm
        · exact absurd rfl he
        · have hbeq : (cur' == c) = false := by
            simp [beq_eq_false_iff_ne]; exact he
          simp only [List.lookup, hbeq]
          exact load_series_lookup_isSome pc f idx rest cur' hm
    · rw [if_neg hc]
      cases hcfg : (pc.lookup c).bind (fun cfg => cfg.symbol) with
      | none =>
        dsimp only
        by_cases he : cur' = c
        · subst he; simp [List.lookup]
        · rcases List.mem_cons.mp h with rfl | hm
          · exact absurd rfl he
          · have hbeq : (cur' == c) = false := by
              simp [beq_eq_false_iff_ne]; exact he
            simp only [List.lookup, hbeq]
            exact load_series_lookup_isSome pc f idx rest cur' hm
      | some sym =>
        dsimp only
        by_cases he : cur' = c
        · subst he; simp [List.lookup]
        · rcases List.mem_cons.mp h with rfl | hm
          · exact absurd rfl he
          · have hbeq : (cur' == c) = false := by
              simp [beq_eq_false_iff_ne]; exact he
            simp only [List.lookup, hbeq]
            exact load_series_lookup_isSome pc f idx rest cur' hm

/-! Lemmas about exclusion of a company from the allocation (claims C3, C6). -/

theorem ticker_not_in_resolved {cs : List Company} {tc : ℚ} {ts : ℤ}
    {pr : List (String × PFloat)} {fx : List (String × FxSeries)} {c : Company}
    (hnodup : (cs.map Company.ticker).Nodup) (hc : c ∈ cs)
    (hres : (resolveCompany tc ts pr fx c).1 = none) :
    c.ticker ∉ (cs.filter
      (fun c' => ((resolveCompany tc ts pr fx c').1).isSome)).map Company.ticker := by
  intro hmem
  rcases List.mem_map.mp hmem with ⟨c', hc', he⟩
  have hc'cs : c' ∈ cs := (List.mem_filter.mp hc').1
  have hcc : c' = c := List.inj_on_of_nodup_map hnodup hc'cs hc he
  subst hcc
  have hsome := (List.mem_filter.mp hc').2
  rw [hres] at hsome
  cases hsome

theorem allocate_excludes {cs : List Company} {tc : ℚ} {idx : List ℤ} {ts : ℤ}
    {pr : List (String × PFloat)} {fx : List (String × FxSeries)} {c : Company}
    (hnodup : (cs.map Company.ticker).Nodup) (hc : c ∈ cs)
    (hres : (resolveCompany tc ts pr fx c).1 = none) :
    (∀ r ∈ (allocate cs tc idx ts pr fx).allocation_rows, r.ticker ≠ c.ticker) ∧
    (∀ e ∈ (allocate cs tc idx ts pr fx).purchase_events,
      e.company.ticker ≠ c.ticker) ∧
    ((allocate cs tc idx ts pr fx).initial_price_usd).lookup c.ticker = none := by
  have hnot := ticker_not_in_resolved hnodup hc hres
  refine ⟨?_, ?_, ?_⟩
  · intro r hr he
    apply hnot
    rw [← allocate_rows_tickers cs tc idx ts pr fx, ← he]
    exact List.mem_map_of_mem _ hr
  · intro e hee he
    apply hnot
    have := allocate_events_tickers cs tc idx ts pr fx e hee
    rw [step1Rows_map_ticker] at this
    rw [← he]
    exact this
  · rw [allocate_initial_price]
    apply lookup_eq_none_of_forall
    intro p hp
    rcases List.mem_map.mp hp with ⟨r, hr, he⟩
    intro hk
    apply hnot
    have h1 : r.ticker ∈ (step1Rows tc ts pr fx cs).map Row.ticker :=
      List.mem_map_of_mem _ hr
    rw [step1Rows_map_ticker] at h1
    have h2 : p.1 = r.ticker := (congrArg Prod.fst he).symm
    rw [← hk, h2]
    exact h1

theorem allocate_keeps_resolved {cs : List Company} {tc : ℚ} {idx : List ℤ}
    {ts : ℤ} {pr : List (String × PFloat)} {fx : List (String × FxSeries)}
    {c' : Company} (hc' : c' ∈ cs)
    (hsome : ((resolveCompany tc ts pr fx c').1).isSome) :
    c'.ticker ∈ ((allocate cs tc idx ts pr fx).allocation_rows).map Row.ticker := by
  rw [allocate_rows_tickers]
  exact List.mem_map_of_mem _ (List.mem_filter.mpr ⟨hc', hsome⟩)

theorem load_prices_lookup_none {companies : List Company}
    {table : List (String × PFloat)} {c : Company}
    (hnodup : (companies.map Company.ticker).Nodup) (hc : c ∈ companies)
    (habs : table.lookup c.ticker = none) :
    ((load_prices companies (some table)).1).lookup c.ticker = none := by
  apply lookup_eq_none_of_forall
  intro p hp
  rcases List.mem_filterMap.mp hp with ⟨c', hc', he⟩
  rcases Option.map_eq_some'.mp he with ⟨v, hv, hpe⟩
  intro hk
  have h1 : p.1 = c'.ticker := (congrArg Prod.fst hpe).symm
  have h2 : c' = c :=
    List.inj_on_of_nodup_map hnodup hc' hc (by rw [← h1, hk])
  subst h2
  rw [habs] at hv
  cases hv

theorem load_prices_warn {companies : List Company}
    {table : List (String × PFloat)} {c : Company} (hc : c ∈ companies)
    (habs : table.lookup c.ticker = none) :
    (⟨.WARNING, .missingTickerCsv c.ticker⟩ : ServiceMessage)
      ∈ (load_prices companies (some table)).2 := by
  unfold load_prices
  dsimp only
  refine List.mem_flatMap.mpr ⟨c, hc, ?_⟩
  rw [habs]
  exact List.mem_singleton.mpr rfl

/-! The claims. -/

/-- C1: cash conservation.  For every call to `allocate`, the sum over all
allocation rows of (final integer quantity × USD purchase price), plus the
returned `final_cash_usd`, equals `total_cash_usd`.  In this exact rational
model the conservation law holds exactly (hence in particular within the
floating-point epsilon the claim allows), and it holds for every call,
in particular those in which all companies resolve to a positive USD
price. -/
theorem C1_cash_conservation (cs : List Company) (tc : ℚ) (idx : List ℤ)
    (ts : ℤ) (pr : List (String × PFloat)) (fx : List (String × FxSeries)) :
    invested (allocate cs tc idx ts pr fx).allocation_rows
      + (allocate cs tc idx ts pr fx).final_cash_usd = tc :=
  allocate_conservation cs tc idx ts pr fx

/-- C9: purchase-log chain consistency.  For every call to `allocate`, every
`PurchaseEvent` satisfies `cash_after_usd = cash_before_usd − unit_price_usd`
and `gap_after_usd = gap_before_usd − unit_price_usd`; the first event starts
at `initial_cash_usd`, consecutive events chain cash-after into cash-before,
and replaying the whole log from `initial_cash_usd` lands exactly on
`final_cash_usd` (so an empty log means `final_cash_usd = initial_cash_usd`). -/
theorem C9_purchase_log_chain (cs : List Company) (tc : ℚ) (idx : List ℤ)
    (ts : ℤ) (pr : List (String × PFloat)) (fx : List (String × FxSeries)) :
    chainFrom (allocate cs tc idx ts pr fx).initial_cash_usd
        (allocate cs tc idx ts pr fx).purchase_events
    ∧ (allocate cs tc idx ts pr fx).final_cash_usd
        = lastCash (allocate cs tc idx ts pr fx).initial_cash_usd
            (allocate cs tc idx ts pr fx).purchase_events := by
  simp only [allocate]
  by_cases he : (step1Rows tc ts pr fx cs).isEmpty
  · rw [if_pos he]
    exact ⟨trivial, rfl⟩
  · rw [if_neg he]
    have h := distLoop_chain
      (fuelBound (tc - invested (step1Rows tc ts pr fx cs))
        (minPrice (step1Rows tc ts pr fx cs)))
      ⟨step1Rows tc ts pr fx cs, tc - invested (step1Rows tc ts pr fx cs), []⟩
      (tc - invested (step1Rows tc ts pr fx cs)) trivial rfl
    exact ⟨h.1, h.2.symm⟩

/-- C10: total-exclusion atomicity.  When every supplied company is excluded
in step 1 (missing initial price or invalid USD price), `allocate` returns —
without raising, being a total function — a result with an empty allocation
table, an empty purchase log, `initial_cash_usd = final_cash_usd =
total_cash_usd`, no recorded USD prices, and exactly the accumulated step-1
messages. -/
theorem C10_total_exclusion (cs : List Company) (tc : ℚ) (idx : List ℤ)
    (ts : ℤ) (pr : List (String × PFloat)) (fx : List (String × FxSeries))
    (h : ∀ c ∈ cs, (resolveCompany tc ts pr fx c).1 = none) :
    (allocate cs tc idx ts pr fx).allocation_rows = [] ∧
    (allocate cs tc idx ts pr fx).purchase_events = [] ∧
    (allocate cs tc idx ts pr fx).initial_cash_usd = tc ∧
    (allocate cs tc idx ts pr fx).final_cash_usd = tc ∧
    (allocate cs tc idx ts pr fx).initial_price_usd = [] ∧
    (allocate cs tc idx ts pr fx).messages = step1Msgs tc ts pr fx cs := by
  have hrows : step1Rows tc ts pr fx cs = [] :=
    List.filterMap_eq_nil_iff.mpr h
  simp only [allocate, hrows]
  exact ⟨rfl, rfl, rfl, rfl, rfl, rfl⟩

/-- C10 witness: with one company and an empty price map the hypothesis of
`C10_total_exclusion` holds and its conclusion follows at this input. -/
theorem C10_total_exclusion_witness :
    (∀ c ∈ [(⟨"Alpha", "AAA", 50, "USD"⟩ : Company)],
      (resolveCompany 100 0 [] [] c).1 = none) ∧
    ((allocate [(⟨"Alpha", "AAA", 50, "USD"⟩ : Company)] 100 [] 0 [] []).allocation_rows = [] ∧
     (allocate [(⟨"Alpha", "AAA", 50, "USD"⟩ : Company)] 100 [] 0 [] []).purchase_events = [] ∧
     (allocate [(⟨"Alpha", "AAA", 50, "USD"⟩ : Company)] 100 [] 0 [] []).initial_cash_usd = 100 ∧
     (allocate [(⟨"Alpha", "AAA", 50, "USD"⟩ : Company)] 100 [] 0 [] []).final_cash_usd = 100 ∧
     (allocate [(⟨"Alpha", "AAA", 50, "USD"⟩ : Company)] 100 [] 0 [] []).initial_price_usd = [] ∧
     (allocate [(⟨"Alpha", "AAA", 50, "USD"⟩ : Company)] 100 [] 0 [] []).messages
       = step1Msgs 100 0 [] [] [(⟨"Alpha", "AAA", 50, "USD"⟩ : Company)]) := by
  have hyp : ∀ c ∈ [(⟨"Alpha", "AAA", 50, "USD"⟩ : Company)],
      (resolveCompany 100 0 [] [] c).1 = none := by
    intro c hc
    rcases List.mem_singleton.mp hc with rfl
    rfl
  exact ⟨hyp, C10_total_exclusion _ 100 [] 0 [] [] hyp⟩

/-- Concrete evaluation: one company "A" with weight 1, local price 1, no FX
series for its currency, and a budget of 1000.  Step 1 resolves it to a USD
price of 1, exact quantity 10, integer quantity 10.  Shared by the claim-C2
artifacts. -/
theorem eval_resolve_A :
    resolveCompany 1000 0 [("A", PFloat.val 1)] [] (⟨"A", "A", 1, "USD"⟩ : Company)
      = (some ⟨"A", "A", "USD", 1, 1, 1, 1, 10, 10, 10, 10, 0⟩,
         [⟨.WARNING, .noFxSeries "USD" "A"⟩]) := by
  unfold resolveCompany fxRateOf
  norm_num [List.lookup, pyTrunc, Row.mk.injEq]

/-- Concrete evaluation of the full allocation for the claim-C2 input: the
initial integer allocation buys 10 units (cost 10), leaving cash 990; the
distribution loop stops at once because the selected candidate's gap is 0,
although the instrument (price 1) is affordable. -/
theorem eval_alloc_A :
    allocate [(⟨"A", "A", 1, "USD"⟩ : Company)] 1000 [] 0 [("A", PFloat.val 1)] []
      = ⟨[⟨"A", "A", "USD", 1, 1, 1, 1, 10, 10, 10, 10, 0⟩], [], 990, 990,
         [("A", 1)], [⟨.WARNING, .noFxSeries "USD" "A"⟩]⟩ := by
  have h1 : step1Rows 1000 0 [("A", PFloat.val 1)] []
      [(⟨"A", "A", 1, "USD"⟩ : Company)]
      = [⟨"A", "A", "USD", 1, 1, 1, 1, 10, 10, 10, 10, 0⟩] := by
    simp only [step1Rows, List.filterMap_cons, List.filterMap_nil, eval_resolve_A]
  have h2 : step1Msgs 1000 0 [("A", PFloat.val 1)] []
      [(⟨"A", "A", 1, "USD"⟩ : Company)]
      = [⟨.WARNING, .noFxSeries "USD" "A"⟩] := by
    simp only [step1Msgs, List.flatMap_cons, List.flatMap_nil, eval_resolve_A,
      List.append_nil]
  have hinv : invested [(⟨"A", "A", "USD", 1, 1, 1, 1, 10, 10, 10, 10, 0⟩ : Row)]
      = 10 := by
    norm_num [invested]
  have hterm : Terminal
      ⟨[⟨"A", "A", "USD", 1, 1, 1, 1, 10, 10, 10, 10, 0⟩], 990, []⟩ := by
    right; right
    refine ⟨(0, ⟨"A", "A", "USD", 1, 1, 1, 1, 10, 10, 10, 10, 0⟩), ?_, ?_⟩
    · show pick 990 ([(⟨"A", "A", "USD", 1, 1, 1, 1, 10, 10, 10, 10, 0⟩ : Row)].enum)
        = _
      norm_num [pick, EPS, List.enum]
    · norm_num [gapOf]
  have h990 : (1000 : ℚ)
      - invested [(⟨"A", "A", "USD", 1, 1, 1, 1, 10, 10, 10, 10, 0⟩ : Row)]
      = 990 := by
    rw [hinv]; norm_num
  simp only [allocate, h1, h2]
  rw [if_neg (by simp)]
  rw [h990]
  rw [distLoop_of_terminal _ _ hterm]
  rfl

/-- C2 (amended): loop postcondition.  When `allocate` produces a non-empty
allocation, after the distribution loop terminates either the remaining cash
is strictly below the cheapest instrument's price, or the loop stopped
because the selected candidate (largest gap among the affordable rows, ties
by cheapest price) had a non-positive gap.  The original claim omits the
second alternative, which the `gap <= 0` break of the source makes
reachable. -/
theorem C2_loop_postcondition (cs : List Company) (tc : ℚ) (idx : List ℤ)
    (ts : ℤ) (pr : List (String × PFloat)) (fx : List (String × FxSeries))
    (hne : (allocate cs tc idx ts pr fx).allocation_rows ≠ []) :
    (allocate cs tc idx ts pr fx).final_cash_usd
        < minPrice (allocate cs tc idx ts pr fx).allocation_rows ∨
    ∃ ir, pick (allocate cs tc idx ts pr fx).final_cash_usd
        ((allocate cs tc idx ts pr fx).allocation_rows).enum = some ir ∧
      gapOf ir.2 ≤ 0 := by
  have hrne : step1Rows tc ts pr fx cs ≠ [] :=
    fun h => hne ((allocate_nonempty_iff cs tc idx ts pr fx).mpr h)
  have hE : (0 : ℚ) < EPS := by norm_num [EPS]
  rcases allocate_terminal cs tc idx ts pr fx hrne with h | h | ⟨ir, hpk, hg⟩
  · left
    have := not_le.mp h
    linarith
  · left
    rcases minPrice_mem hne with ⟨r, hr, hmin⟩
    rcases List.mem_iff_get?.mp hr with ⟨n, hn⟩
    have hmem : (n, r) ∈ ((allocate cs tc idx ts pr fx).allocation_rows).enum :=
      List.mk_mem_enum_iff_get?.mpr hn
    have hun := pick_eq_none_iff.mp h (n, r) hmem
    dsimp only at hun
    rw [hmin] at hun
    have := not_le.mp hun
    linarith
  · right
    exact ⟨ir, hpk, hg⟩

/-- C2 counterexample to the claim as stated: with one company of weight 1,
price 1 and budget 1000, the loop ends with cash 990, at or above the
cheapest price 1, even though that instrument was affordable throughout
(the claim predicted remaining cash strictly below the cheapest price
whenever some instrument was affordable). -/
theorem C2_counterexample :
    (allocate [(⟨"A", "A", 1, "USD"⟩ : Company)] 1000 [] 0
        [("A", PFloat.val 1)] []).allocation_rows ≠ [] ∧
    minPrice (allocate [(⟨"A", "A", 1, "USD"⟩ : Company)] 1000 [] 0
        [("A", PFloat.val 1)] []).allocation_rows
      ≤ (allocate [(⟨"A", "A", 1, "USD"⟩ : Company)] 1000 [] 0
        [("A", PFloat.val 1)] []).final_cash_usd ∧
    minPrice (allocate [(⟨"A", "A", 1, "USD"⟩ : Company)] 1000 [] 0
        [("A", PFloat.val 1)] []).allocation_rows
      ≤ (allocate [(⟨"A", "A", 1, "USD"⟩ : Company)] 1000 [] 0
        [("A", PFloat.val 1)] []).initial_cash_usd + EPS := by
  rw [eval_alloc_A]
  refine ⟨by simp, ?_, ?_⟩
  · norm_num [minPrice]
  · norm_num [minPrice, EPS]

/-- C2 witness: the amended postcondition instantiated at the counterexample
input, where the loop indeed stopped on a non-positive gap. -/
theorem C2_loop_postcondition_witness :
    ((allocate [(⟨"A", "A", 1, "USD"⟩ : Company)] 1000 [] 0
        [("A", PFloat.val 1)] []).allocation_rows ≠ []) ∧
    ((allocate [(⟨"A", "A", 1, "USD"⟩ : Company)] 1000 [] 0
        [("A", PFloat.val 1)] []).final_cash_usd
        < minPrice (allocate [(⟨"A", "A", 1, "USD"⟩ : Company)] 1000 [] 0
          [("A", PFloat.val 1)] []).allocation_rows ∨
      ∃ ir, pick (allocate [(⟨"A", "A", 1, "USD"⟩ : Company)] 1000 [] 0
          [("A", PFloat.val 1)] []).final_cash_usd
          ((allocate [(⟨"A", "A", 1, "USD"⟩ : Company)] 1000 [] 0
            [("A", PFloat.val 1)] []).allocation_rows).enum = some ir ∧
        gapOf ir.2 ≤ 0) := by
  have hne : (allocate [(⟨"A", "A", 1, "USD"⟩ : Company)] 1000 [] 0
      [("A", PFloat.val 1)] []).allocation_rows ≠ [] := by
    rw [eval_alloc_A]; simp
  exact ⟨hne, C2_loop_postcondition _ 1000 [] 0 _ [] hne⟩

/-- Concrete evaluation: one company "T" with weight 50, local price 1, no FX
series, and a negative budget of −3.  The exact quantity −3/2 truncates
toward zero to −1 and the initial residual is −1/2.  Shared by the claim-C4
artifacts. -/
theorem eval_resolve_T :
    resolveCompany (-3) 0 [("T", PFloat.val 1)] [] (⟨"T", "T", 50, "USD"⟩ : Company)
      = (some ⟨"T", "T", "USD", 50, 1, 1, 1, -(3/2), -(3/2), -1, -1, -(1/2)⟩,
         [⟨.WARNING, .noFxSeries "USD" "T"⟩]) := by
  have hceil : ⌈(-(3/2) : ℚ)⌉ = -1 := by
    rw [Int.ceil_eq_iff] <;> norm_num
  unfold resolveCompany fxRateOf
  norm_num [List.lookup, pyTrunc, Row.mk.injEq, hceil]

/-- Concrete evaluation of the full allocation for the claim-C4 input: the
initial integer allocation holds −1 units (value −1), leaving cash −2, and
the loop never runs because the cheapest price 1 is unaffordable. -/
theorem eval_alloc_T :
    allocate [(⟨"T", "T", 50, "USD"⟩ : Company)] (-3) [] 0 [("T", PFloat.val 1)] []
      = ⟨[⟨"T", "T", "USD", 50, 1, 1, 1, -(3/2), -(3/2), -1, -1, -(1/2)⟩], [],
         -2, -2, [("T", 1)], [⟨.WARNING, .noFxSeries "USD" "T"⟩]⟩ := by
  have h1 : step1Rows (-3) 0 [("T", PFloat.val 1)] []
      [(⟨"T", "T", 50, "USD"⟩ : Company)]
      = [⟨"T", "T", "USD", 50, 1, 1, 1, -(3/2), -(3/2), -1, -1, -(1/2)⟩] := by
    simp only [step1Rows, List.filterMap_cons, List.filterMap_nil, eval_resolve_T]
  have h2 : step1Msgs (-3) 0 [("T", PFloat.val 1)] []
      [(⟨"T", "T", 50, "USD"⟩ : Company)]
      = [⟨.WARNING, .noFxSeries "USD" "T"⟩] := by
    simp only [step1Msgs, List.flatMap_cons, List.flatMap_nil, eval_resolve_T,
      List.append_nil]
  have hterm : Terminal
      ⟨[⟨"T", "T", "USD", 50, 1, 1, 1, -(3/2), -(3/2), -1, -1, -(1/2)⟩], -2, []⟩ := by
    left
    norm_num [minPrice, EPS]
  have hm2 : (-3 : ℚ)
      - invested [(⟨"T", "T", "USD", 50, 1, 1, 1, -(3/2), -(3/2), -1, -1,
        -(1/2)⟩ : Row)] = -2 := by
    norm_num [invested]
  simp only [allocate, h1, h2]
  rw [if_neg (by simp)]
  rw [hm2]
  rw [distLoop_of_terminal _ _ hterm]
  rfl

/-- C4 counterexample to the claim as stated: called with a negative total
cash of −3, company "T" resolves to the positive USD price 1 and has the
non-negative weight 50, yet its initial residual is −1/2, outside [0, 1)
(Python `int()` truncates the negative exact quantity −3/2 toward zero). -/
theorem C4_counterexample :
    ((allocate [(⟨"T", "T", 50, "USD"⟩ : Company)] (-3) [] 0
        [("T", PFloat.val 1)] []).allocation_rows).map Row.residuo = [-(1/2)] ∧
    ((allocate [(⟨"T", "T", 50, "USD"⟩ : Company)] (-3) [] 0
        [("T", PFloat.val 1)] []).allocation_rows).map Row.preco_usd = [1] ∧
    ((allocate [(⟨"T", "T", 50, "USD"⟩ : Company)] (-3) [] 0
        [("T", PFloat.val 1)] []).allocation_rows).map Row.peso = [50] ∧
    ¬ (0 ≤ (-(1/2) : ℚ)) := by
  rw [eval_alloc_T]
  exact ⟨rfl, rfl, rfl, by norm_num⟩

/-- C4 (amended): residual bound.  For every call to `allocate` with a
non-negative total cash, the initial residual of every allocation row with a
non-negative target weight lies in [0, 1); the positive USD price is
automatic for every produced row.  The original claim, which does not
restrict the sign of the total cash, fails for negative cash budgets. -/
theorem C4_residual_bound (cs : List Company) (tc : ℚ) (idx : List ℤ)
    (ts : ℤ) (pr : List (String × PFloat)) (fx : List (String × FxSeries))
    (htc : 0 ≤ tc) :
    ∀ r ∈ (allocate cs tc idx ts pr fx).allocation_rows,
      0 ≤ r.peso → 0 ≤ r.residuo ∧ r.residuo < 1 := by
  intro r hr hpeso
  have hmem : Row.stripQty r ∈ (step1Rows tc ts pr fx cs).map Row.stripQty := by
    rw [← allocate_rows_strip cs tc idx ts pr fx]
    exact List.mem_map_of_mem _ hr
  rcases List.mem_map.mp hmem with ⟨r₀, hr₀, he⟩
  have hres : r₀.residuo = r.residuo := by
    have h' := congrArg Row.residuo he
    exact h'
  have hpeso₀ : r₀.peso = r.peso := by
    have h' := congrArg Row.peso he
    exact h'
  rcases step1Rows_mem.mp hr₀ with ⟨c, _, hresolve⟩
  obtain ⟨-, hw, hpos, halvo, hqe, -, hresid⟩ := resolve_some_spec hresolve
  have hwnn : 0 ≤ c.target_weight := by
    rw [← hw, hpeso₀]; exact hpeso
  have hq : 0 ≤ r₀.qtd_exata := by
    rw [hqe, halvo]
    apply div_nonneg
    · apply div_nonneg (mul_nonneg htc hwnn)
      norm_num
    · exact hpos.le
  have htr : pyTrunc r₀.qtd_exata = ⌊r₀.qtd_exata⌋ := by
    unfold pyTrunc
    rw [if_neg (not_lt.mpr hq)]
  have hfr : r₀.residuo = Int.fract r₀.qtd_exata := by
    rw [hresid, htr]
    rfl
  rw [← hres, hfr]
  exact ⟨Int.fract_nonneg _, Int.fract_lt_one _⟩

/-- C4 witness: the amended residual bound instantiated at the claim-C2
evaluation input (total cash 1000 ≥ 0), whose allocation is non-empty. -/
theorem C4_residual_bound_witness :
    (0 : ℚ) ≤ 1000 ∧
    (allocate [(⟨"A", "A", 1, "USD"⟩ : Company)] 1000 [] 0
      [("A", PFloat.val 1)] []).allocation_rows ≠ [] ∧
    (∀ r ∈ (allocate [(⟨"A", "A", 1, "USD"⟩ : Company)] 1000 [] 0
        [("A", PFloat.val 1)] []).allocation_rows,
      0 ≤ r.peso → 0 ≤ r.residuo ∧ r.residuo < 1) := by
  refine ⟨by norm_num, ?_, C4_residual_bound _ 1000 [] 0 _ [] (by norm_num)⟩
  rw [eval_alloc_A]
  simp

/-- C3: missing-ticker policy.  For a company whose ticker is absent from
the CSV snapshot, the `load_prices` → `allocate` pipeline emits a WARNING
mentioning that ticker, the company appears in no allocation row and in no
purchase event, and every other company that step 1 resolves is still
represented in the allocation (processing continues). -/
theorem C3_missing_ticker (cs : List Company) (table : List (String × PFloat))
    (tc : ℚ) (idx : List ℤ) (ts : ℤ) (fx : List (String × FxSeries))
    (c : Company) (hnodup : (cs.map Company.ticker).Nodup) (hc : c ∈ cs)
    (habs : table.lookup c.ticker = none) :
    (⟨.WARNING, .missingTickerCsv c.ticker⟩ : ServiceMessage)
      ∈ (pipelineAllocate cs (some table) tc idx ts fx).messages ∧
    (∀ r ∈ (pipelineAllocate cs (some table) tc idx ts fx).allocation_rows,
      r.ticker ≠ c.ticker) ∧
    (∀ e ∈ (pipelineAllocate cs (some table) tc idx ts fx).purchase_events,
      e.company.ticker ≠ c.ticker) ∧
    (∀ c' ∈ cs,
      ((resolveCompany tc ts (load_prices cs (some table)).1 fx c').1).isSome →
      c'.ticker ∈ ((pipelineAllocate cs (some table) tc idx ts
        fx).allocation_rows).map Row.ticker) := by
  have hlp : ((load_prices cs (some table)).1).lookup c.ticker = none :=
    load_prices_lookup_none hnodup hc habs
  have hres : (resolveCompany tc ts (load_prices cs (some table)).1 fx c).1
      = none := by
    rw [resolve_noprice hlp]
  obtain ⟨h1, h2, -⟩ := @allocate_excludes cs tc idx ts
    (load_prices cs (some table)).1 fx c hnodup hc hres
  simp only [pipelineAllocate]
  refine ⟨?_, h1, h2, ?_⟩
  · exact List.mem_append.mpr (Or.inl (load_prices_warn hc habs))
  · intro c' hc' hsome
    exact allocate_keeps_resolved hc' hsome

/-- C3 witness: two companies, one of which ("BBB") is absent from the CSV
snapshot; the pipeline warns about it, excludes it, and keeps the other. -/
theorem C3_missing_ticker_witness :
    ([(⟨"Alpha", "AAA", 50, "USD"⟩ : Company),
      ⟨"Beta", "BBB", 50, "USD"⟩].map Company.ticker).Nodup ∧
    (⟨"Beta", "BBB", 50, "USD"⟩ : Company)
      ∈ [(⟨"Alpha", "AAA", 50, "USD"⟩ : Company), ⟨"Beta", "BBB", 50, "USD"⟩] ∧
    ([("AAA", PFloat.val 1)].lookup "BBB" : Option PFloat) = none ∧
    ((⟨.WARNING, .missingTickerCsv "BBB"⟩ : ServiceMessage)
      ∈ (pipelineAllocate [(⟨"Alpha", "AAA", 50, "USD"⟩ : Company),
          ⟨"Beta", "BBB", 50, "USD"⟩] (some [("AAA", PFloat.val 1)]) 0 [] 0
          []).messages ∧
     (∀ r ∈ (pipelineAllocate [(⟨"Alpha", "AAA", 50, "USD"⟩ : Company),
          ⟨"Beta", "BBB", 50, "USD"⟩] (some [("AAA", PFloat.val 1)]) 0 [] 0
          []).allocation_rows, r.ticker ≠ "BBB") ∧
     (∀ e ∈ (pipelineAllocate [(⟨"Alpha", "AAA", 50, "USD"⟩ : Company),
          ⟨"Beta", "BBB", 50, "USD"⟩] (some [("AAA", PFloat.val 1)]) 0 [] 0
          []).purchase_events, e.company.ticker ≠ "BBB") ∧
     (∀ c' ∈ [(⟨"Alpha", "AAA", 50, "USD"⟩ : Company),
          ⟨"Beta", "BBB", 50, "USD"⟩],
       ((resolveCompany 0 0 (load_prices [(⟨"Alpha", "AAA", 50, "USD"⟩ : Company),
          ⟨"Beta", "BBB", 50, "USD"⟩] (some [("AAA", PFloat.val 1)])).1 []
          c').1).isSome →
       c'.ticker ∈ ((pipelineAllocate [(⟨"Alpha", "AAA", 50, "USD"⟩ : Company),
          ⟨"Beta", "BBB", 50, "USD"⟩] (some [("AAA", PFloat.val 1)]) 0 [] 0
          []).allocation_rows).map Row.ticker)) := by
  have hnodup : ([(⟨"Alpha", "AAA", 50, "USD"⟩ : Company),
      ⟨"Beta", "BBB", 50, "USD"⟩].map Company.ticker).Nodup := by
    simp
  have hmem : (⟨"Beta", "BBB", 50, "USD"⟩ : Company)
      ∈ [(⟨"Alpha", "AAA", 50, "USD"⟩ : Company), ⟨"Beta", "BBB", 50, "USD"⟩] := by
    simp
  have habs : ([("AAA", PFloat.val 1)].lookup "BBB" : Option PFloat) = none := by
    simp [List.lookup]
  exact ⟨hnodup, hmem, habs,
    C3_missing_ticker _ _ 0 [] 0 [] _ hnodup hmem habs⟩

/-- C6: invalid-price exclusion.  For a company whose derived USD price
(local price × resolved FX rate) is NaN or non-positive, `allocate` emits an
ERROR mentioning the ticker and excludes the company entirely: no
allocation row, no purchase event, and no entry in the recorded USD price
map (no default substitution); every other resolved company is still
represented. -/
theorem C6_invalid_price_exclusion (cs : List Company) (tc : ℚ) (idx : List ℤ)
    (ts : ℤ) (pr : List (String × PFloat)) (fx : List (String × FxSeries))
    (c : Company) (pl : PFloat) (hnodup : (cs.map Company.ticker).Nodup)
    (hc : c ∈ cs) (hl : pr.lookup c.ticker = some pl)
    (hinv : pyInvalid (pfMul pl (.val (fxRateOf ts fx c).1)) = true) :
    (⟨.ERROR, .invalidPrice c.ticker⟩ : ServiceMessage)
      ∈ (allocate cs tc idx ts pr fx).messages ∧
    (∀ r ∈ (allocate cs tc idx ts pr fx).allocation_rows,
      r.ticker ≠ c.ticker) ∧
    (∀ e ∈ (allocate cs tc idx ts pr fx).purchase_events,
      e.company.ticker ≠ c.ticker) ∧
    ((allocate cs tc idx ts pr fx).initial_price_usd).lookup c.ticker = none ∧
    (∀ c' ∈ cs, ((resolveCompany tc ts pr fx c').1).isSome →
      c'.ticker ∈ ((allocate cs tc idx ts pr
        fx).allocation_rows).map Row.ticker) := by
  obtain ⟨hnone, hmsg⟩ := @resolve_invalid tc ts pr fx c pl hl hinv
  obtain ⟨h1, h2, h3⟩ := @allocate_excludes cs tc idx ts pr fx c hnodup hc hnone
  refine ⟨?_, h1, h2, h3, ?_⟩
  · rw [allocate_messages]
    exact step1Msgs_mem hc hmsg
  · intro c' hc' hsome
    exact allocate_keeps_resolved hc' hsome

/-- C6 witness: a company whose local price 0 yields the non-positive USD
price 0 × 1 = 0; the ERROR is emitted and the company is fully excluded. -/
theorem C6_invalid_price_exclusion_witness :
    ([(⟨"Zed", "ZZZ", 50, "USD"⟩ : Company)].map Company.ticker).Nodup ∧
    (⟨"Zed", "ZZZ", 50, "USD"⟩ : Company)
      ∈ [(⟨"Zed", "ZZZ", 50, "USD"⟩ : Company)] ∧
    ([("ZZZ", PFloat.val 0)].lookup "ZZZ" : Option PFloat)
      = some (PFloat.val 0) ∧
    pyInvalid (pfMul (PFloat.val 0)
      (.val (fxRateOf 0 [] (⟨"Zed", "ZZZ", 50, "USD"⟩ : Company)).1)) = true ∧
    ((⟨.ERROR, .invalidPrice "ZZZ"⟩ : ServiceMessage)
      ∈ (allocate [(⟨"Zed", "ZZZ", 50, "USD"⟩ : Company)] 100 [] 0
          [("ZZZ", PFloat.val 0)] []).messages ∧
     (∀ r ∈ (allocate [(⟨"Zed", "ZZZ", 50, "USD"⟩ : Company)] 100 [] 0
          [("ZZZ", PFloat.val 0)] []).allocation_rows, r.ticker ≠ "ZZZ") ∧
     (∀ e ∈ (allocate [(⟨"Zed", "ZZZ", 50, "USD"⟩ : Company)] 100 [] 0
          [("ZZZ", PFloat.val 0)] []).purchase_events,
        e.company.ticker ≠ "ZZZ") ∧
     ((allocate [(⟨"Zed", "ZZZ", 50, "USD"⟩ : Company)] 100 [] 0
          [("ZZZ", PFloat.val 0)] []).initial_price_usd).lookup "ZZZ" = none ∧
     (∀ c' ∈ [(⟨"Zed", "ZZZ", 50, "USD"⟩ : Company)],
       ((resolveCompany 100 0 [("ZZZ", PFloat.val 0)] [] c').1).isSome →
       c'.ticker ∈ ((allocate [(⟨"Zed", "ZZZ", 50, "USD"⟩ : Company)] 100 [] 0
          [("ZZZ", PFloat.val 0)] []).allocation_rows).map Row.ticker)) := by
  have hnodup : ([(⟨"Zed", "ZZZ", 50, "USD"⟩ : Company)].map Company.ticker).Nodup := by
    simp
  have hmem : (⟨"Zed", "ZZZ", 50, "USD"⟩ : Company)
      ∈ [(⟨"Zed", "ZZZ", 50, "USD"⟩ : Company)] := by
    simp
  have hl : ([("ZZZ", PFloat.val 0)].lookup "ZZZ" : Option PFloat)
      = some (PFloat.val 0) := by
    simp [List.lookup]
  have hinv : pyInvalid (pfMul (PFloat.val 0)
      (.val (fxRateOf 0 [] (⟨"Zed", "ZZZ", 50, "USD"⟩ : Company)).1)) = true := by
    norm_num [pyInvalid, pfMul, fxRateOf, List.lookup]
  exact ⟨hnodup, hmem, hl, hinv,
    C6_invalid_price_exclusion _ 100 [] 0 _ [] _ _ hnodup hmem hl hinv⟩

/-- C5: as-of FX resolution.  On a date-sorted series, when some non-missing
point lies at or before the purchase date, `_extract_fx_rate` returns the
value of the latest such point — never a later or merely nearest one — and
emits no message.  When no non-missing point lies at or before the purchase
date it emits the WARNING and falls back to the last non-missing value of
the whole series, or to 1.0 when the series has no non-missing value at
all. -/
theorem C5_asof_fx_resolution (currency : String) (s : FxSeries) (ts : ℤ)
    (hs : s.Pairwise (fun a b => a.1 < b.1)) :
    ((∃ p ∈ s, p.1 ≤ ts ∧ p.2.isSome) →
      ∃ d v, (d, some v) ∈ s ∧ d ≤ ts ∧
        (∀ p ∈ s, p.1 ≤ ts → p.2.isSome → p.1 ≤ d) ∧
        extract_fx_rate currency s ts = (v, [])) ∧
    ((∀ p ∈ s, p.1 ≤ ts → p.2 = none) →
      ((∃ d v, (d, some v) ∈ s ∧ (∀ p ∈ s, p.2.isSome → p.1 ≤ d) ∧
          extract_fx_rate currency s ts
            = (v, [⟨.WARNING, .fxAsofFallback currency⟩])) ∨
       ((∀ p ∈ s, p.2 = none) ∧
        extract_fx_rate currency s ts
          = (1, [⟨.WARNING, .fxAsofFallback currency⟩])))) := by
  constructor
  · rintro ⟨p₀, hp₀, hle₀, hsome₀⟩
    have hpmem : p₀ ∈ s.filter (fun p => decide (p.1 ≤ ts) && p.2.isSome) :=
      List.mem_filter.mpr ⟨hp₀, by simp [hle₀, hsome₀]⟩
    have hne : s.filter (fun p => decide (p.1 ≤ ts) && p.2.isSome) ≠ [] :=
      List.ne_nil_of_mem hpmem
    obtain ⟨q, hq⟩ := Option.isSome_iff_exists.mp (List.getLast?_isSome.mpr hne)
    obtain ⟨qd, qv⟩ := q
    have hqf : (qd, qv) ∈ s.filter (fun p => decide (p.1 ≤ ts) && p.2.isSome) :=
      List.mem_of_mem_getLast? (Option.mem_def.mpr hq)
    have hqpred := (List.mem_filter.mp hqf).2
    simp only [Bool.and_eq_true, decide_eq_true_eq] at hqpred
    obtain ⟨hqle, hqsome⟩ := hqpred
    obtain ⟨v, hv⟩ := Option.isSome_iff_exists.mp hqsome
    subst hv
    have hmax := max_of_getLast? (hs.filter _) hq
    refine ⟨qd, v, (List.mem_filter.mp hqf).1, hqle, ?_, ?_⟩
    · intro p hp hple hpsome
      exact hmax p (List.mem_filter.mpr ⟨hp, by simp [hple, hpsome]⟩)
    · unfold extract_fx_rate seriesAsof
      rw [hq]
      rfl
  · intro hall
    have hfe : s.filter (fun p => decide (p.1 ≤ ts) && p.2.isSome) = [] := by
      rw [List.filter_eq_nil_iff]
      intro p hp
      by_cases hle : p.1 ≤ ts
      · simp [hall p hp hle]
      · simp [hle]
    have hasof : seriesAsof s ts = none := by
      unfold seriesAsof
      rw [hfe]
      rfl
    by_cases hne2 : s.filter (fun p => p.2.isSome) = []
    · right
      have hallnone : ∀ p ∈ s, p.2 = none := by
        intro p hp
        have := List.filter_eq_nil_iff.mp hne2 p hp
        exact Option.not_isSome_iff_eq_none.mp (by simpa using this)
      refine ⟨hallnone, ?_⟩
      unfold extract_fx_rate
      rw [hasof]
      have hlv : lastValid s = none := by
        unfold lastValid
        rw [List.filterMap_eq_nil_iff.mpr hallnone]
        rfl
      rw [hlv]
      rfl
    · left
      obtain ⟨q, hq⟩ := Option.isSome_iff_exists.mp (List.getLast?_isSome.mpr hne2)
      obtain ⟨qd, qv⟩ := q
      have hqf : (qd, qv) ∈ s.filter (fun p => p.2.isSome) :=
        List.mem_of_mem_getLast? (Option.mem_def.mpr hq)
      have hqsome := (List.mem_filter.mp hqf).2
      obtain ⟨v, hv⟩ := Option.isSome_iff_exists.mp (by simpa using hqsome)
      subst hv
      have hmax := max_of_getLast? (hs.filter _) hq
      refine ⟨qd, v, (List.mem_filter.mp hqf).1, ?_, ?_⟩
      · intro p hp hpsome
        exact hmax p (List.mem_filter.mpr ⟨hp, by simpa using hpsome⟩)
      · unfold extract_fx_rate
        rw [hasof]
        have hlv : lastValid s = some v := by
          unfold lastValid
          rw [filterMap_snd_getLast? s, hq]
          rfl
        rw [hlv]
        rfl

/-- C5 witness: a series with points at dates 1, 5 and 9 queried at date 6
satisfies the sortedness hypothesis, and the conclusion holds there (the
resolved value is the date-5 one). -/
theorem C5_asof_fx_resolution_witness :
    ([((1:ℤ), some (2:ℚ)), (5, some 3), (9, some 4)] : FxSeries).Pairwise
      (fun a b => a.1 < b.1) ∧
    (((∃ p ∈ ([((1:ℤ), some (2:ℚ)), (5, some 3), (9, some 4)] : FxSeries),
        p.1 ≤ 6 ∧ p.2.isSome) →
      ∃ d v, (d, some v) ∈ ([((1:ℤ), some (2:ℚ)), (5, some 3),
          (9, some 4)] : FxSeries) ∧ d ≤ 6 ∧
        (∀ p ∈ ([((1:ℤ), some (2:ℚ)), (5, some 3), (9, some 4)] : FxSeries),
          p.1 ≤ 6 → p.2.isSome → p.1 ≤ d) ∧
        extract_fx_rate "EUR" [((1:ℤ), some (2:ℚ)), (5, some 3), (9, some 4)] 6
          = (v, [])) ∧
    ((∀ p ∈ ([((1:ℤ), some (2:ℚ)), (5, some 3), (9, some 4)] : FxSeries),
        p.1 ≤ 6 → p.2 = none) →
      ((∃ d v, (d, some v) ∈ ([((1:ℤ), some (2:ℚ)), (5, some 3),
            (9, some 4)] : FxSeries) ∧
          (∀ p ∈ ([((1:ℤ), some (2:ℚ)), (5, some 3), (9, some 4)] : FxSeries),
            p.2.isSome → p.1 ≤ d) ∧
          extract_fx_rate "EUR" [((1:ℤ), some (2:ℚ)), (5, some 3), (9, some 4)] 6
            = (v, [⟨.WARNING, .fxAsofFallback "EUR"⟩])) ∨
       ((∀ p ∈ ([((1:ℤ), some (2:ℚ)), (5, some 3), (9, some 4)] : FxSeries),
          p.2 = none) ∧
        extract_fx_rate "EUR" [((1:ℤ), some (2:ℚ)), (5, some 3), (9, some 4)] 6
          = (1, [⟨.WARNING, .fxAsofFallback "EUR"⟩]))))) := by
  have hs : ([((1:ℤ), some (2:ℚ)), (5, some 3), (9, some 4)] : FxSeries).Pairwise
      (fun a b => a.1 < b.1) := by
    simp [List.pairwise_cons]
  exact ⟨hs, C5_asof_fx_resolution "EUR" _ 6 hs⟩

/-- C7 (amended): quote sanitization before inversion.  The fetch path
replaces every *zero* raw quote with a missing value before the reciprocal
is applied (positionally), and consequently every value of the produced
series is either the 1.0 of a fallback path or derives from a *non-zero* raw
quote (its reciprocal when `invert` is set, itself otherwise) — no division
by zero ever contributes a value.  The original claim says every
*non-positive* quote is replaced, but the source only replaces `0.0`:
negative quotes survive and are inverted. -/
theorem C7_sanitize_before_inversion :
    (∀ (closes : List (ℤ × ℚ)) (i : ℕ) (p : ℤ × ℚ),
      closes.get? i = some p → p.2 = 0 →
      (sanitizeQuotes closes).get? i = some (p.1, none)) ∧
    (∀ (cur : String) (inv : Bool) (index : List ℤ) (closes : List (ℤ × ℚ))
      (d : ℤ) (v : ℚ),
      (d, some v) ∈ (fetchCurrencySeries cur inv index (.ok closes)).1 →
      v = 1 ∨ ∃ q ∈ closes, q.2 ≠ 0 ∧ v = (if inv then 1 / q.2 else q.2)) := by
  constructor
  · intro closes i p h h0
    unfold sanitizeQuotes
    rw [List.get?_map, h]
    simp [h0]
  · intro cur inv index closes d v h
    unfold fetchCurrencySeries at h
    dsimp only at h
    by_cases h1 : closes.isEmpty
    · rw [if_pos h1] at h
      exact Or.inl (constSeries_vals h)
    · rw [if_neg h1] at h
      by_cases h2 : allMissing (ffill (reindexOn index (sortByDate
          (invertQuotes inv (sanitizeQuotes closes)))))
      · rw [if_pos h2] at h
        exact Or.inl (constSeries_vals h)
      · rw [if_neg h2] at h
        right
        obtain ⟨d1, hb⟩ := bfill_vals _ h
        rcases ffillAux_vals none _ hb with hcarry | ⟨d2, hf⟩
        · cases hcarry
        · have hr := mem_reindexOn hf
          have hsrt := mem_sortByDate hr
          obtain ⟨w, hw, hvw⟩ := invertQuotes_vals hsrt
          obtain ⟨q, hq, hq0, hwq, -⟩ := sanitizeQuotes_vals hw
          refine ⟨q, hq, hq0, ?_⟩
          rw [hvw, hwq]

/-- C7 counterexample to the claim as stated: the raw quote −2 at date 0 is
non-positive but is *not* replaced before inversion; its reciprocal −1/2
enters the produced series of the fetch path. -/
theorem C7_counterexample :
    (sanitizeQuotes [((0:ℤ), (-2:ℚ))]) = [((0:ℤ), some (-2:ℚ))] ∧
    (fetchCurrencySeries "CNY" true [0] (.ok [((0:ℤ), (-2:ℚ))])).1
      = [((0:ℤ), some (-(1/2) : ℚ))] ∧
    ((-2 : ℚ) ≤ 0) ∧ (-(1/2) : ℚ) = 1 / (-2 : ℚ) := by
  refine ⟨?_, ?_, by norm_num, by norm_num⟩
  · norm_num [sanitizeQuotes]
  · norm_num [fetchCurrencySeries, sanitizeQuotes, invertQuotes, sortByDate,
      insertByDate, reindexOn, ffill, ffillAux, bfill, allMissing, firstSome,
      constSeries, List.lookup]

/-- Concrete evaluation of a successful fetch with one positive quote, used
by the claim-C7 witness. -/
theorem eval_fetch_five :
    (fetchCurrencySeries "JPY" false [0] (.ok [((0:ℤ), (5:ℚ))])).1
      = [((0:ℤ), some (5:ℚ))] := by
  norm_num [fetchCurrencySeries, sanitizeQuotes, invertQuotes, sortByDate,
    insertByDate, reindexOn, ffill, ffillAux, bfill, allMissing, firstSome,
    constSeries, List.lookup]

/-- C7 witness: both parts of the amended statement instantiated — a zero
quote is sanitized to missing, and the value 5 of a produced series traces
back to the non-zero raw quote 5. -/
theorem C7_sanitize_before_inversion_witness :
    (([((0:ℤ), (0:ℚ))].get? 0 : Option (ℤ × ℚ)) = some (0, 0) ∧
     ((0, 0) : ℤ × ℚ).2 = 0 ∧
     (sanitizeQuotes [((0:ℤ), (0:ℚ))]).get? 0 = some (0, none)) ∧
    (((0:ℤ), some (5:ℚ)) ∈ (fetchCurrencySeries "JPY" false [0]
        (.ok [((0:ℤ), (5:ℚ))])).1 ∧
     ((5:ℚ) = 1 ∨ ∃ q ∈ [((0:ℤ), (5:ℚ))], q.2 ≠ 0 ∧
        (5:ℚ) = (if false then 1 / q.2 else q.2))) := by
  have hmem : ((0:ℤ), some (5:ℚ)) ∈ (fetchCurrencySeries "JPY" false [0]
      (.ok [((0:ℤ), (5:ℚ))])).1 := by
    rw [eval_fetch_five]
    exact List.mem_singleton.mpr rfl
  exact ⟨⟨rfl, rfl,
      C7_sanitize_before_inversion.1 [((0:ℤ), (0:ℚ))] 0 ((0:ℤ), (0:ℚ)) rfl rfl⟩,
    ⟨hmem, C7_sanitize_before_inversion.2 "JPY" false [0] _ 0 5 hmem⟩⟩

theorem load_series_lookup_const (pc : List (String × CurrencyPairConfig))
    (f : String → Except String (List (ℤ × ℚ))) (idx : List ℤ) (cur : String)
    (husd : cur ≠ "USD")
    (hnocfg : (pc.lookup cur).bind (fun cfg => cfg.symbol) = none) :
    ∀ currencies : List String, cur ∈ currencies →
    ((load_series pc f currencies idx).series_by_currency).lookup cur
      = some (constSeries idx)
  | [], h => absurd h (List.not_mem_nil _)
  | c :: rest, h => by
    by_cases hceq : c = cur
    · subst hceq
      unfold load_series
      rw [if_neg husd, hnocfg]
      simp [List.lookup]
    · have hm : cur ∈ rest :=
        (List.mem_cons.mp h).resolve_left (fun e => hceq e.symm)
      have hbeq : (cur == c) = false := by
        simp [beq_eq_false_iff_ne]
        exact fun e => hceq e.symm
      unfold load_series
      by_cases hcu : c = "USD"
      · rw [if_pos hcu]
        simp only [List.lookup, hbeq]
        exact load_series_lookup_const pc f idx cur husd hnocfg rest hm
      · rw [if_neg hcu]
        cases hcfg2 : (pc.lookup c).bind (fun cfg => cfg.symbol) with
        | none =>
          dsimp only
          simp only [List.lookup, hbeq]
          exact load_series_lookup_const pc f idx cur husd hnocfg rest hm
        | some sym =>
          dsimp only
          simp only [List.lookup, hbeq]
          exact load_series_lookup_const pc f idx cur husd hnocfg rest hm

theorem load_series_warn_count (pc : List (String × CurrencyPairConfig))
    (f : String → Except String (List (ℤ × ℚ))) (idx : List ℤ) (cur : String)
    (husd : cur ≠ "USD")
    (hnocfg : (pc.lookup cur).bind (fun cfg => cfg.symbol) = none) :
    ∀ currencies : List String,
    ((load_series pc f currencies idx).messages).countP
        (fun m => m = ⟨.WARNING, .noPairConfig cur⟩) = currencies.count cur
  | [] => rfl
  | c :: rest => by
    by_cases hceq : c = cur
    · subst hceq
      unfold load_series
      rw [if_neg husd, hnocfg]
      dsimp only
      rw [List.countP_cons, load_series_warn_count pc f idx c husd hnocfg rest]
      rw [List.count_cons_self]
      simp
    · have hcnt : (c :: rest).count cur = rest.count cur := by
        rw [List.count_cons]
        have hb : (cur == c) = false :=
          beq_eq_false_iff_ne.mpr (fun e => hceq e.symm)
        simp [hb]
        exact hceq
      rw [hcnt]
      unfold load_series
      by_cases hcu : c = "USD"
      · rw [if_pos hcu]
        exact load_series_warn_count pc f idx cur husd hnocfg rest
      · rw [if_neg hcu]
        cases hcfg2 : (pc.lookup c).bind (fun cfg => cfg.symbol) with
        | none =>
          dsimp only
          rw [List.countP_cons]
          have hne' : ¬ ((⟨.WARNING, .noPairConfig c⟩ : ServiceMessage)
              = ⟨.WARNING, .noPairConfig cur⟩) := by
            intro he
            injection he with _ h2
            injection h2 with h3
            exact hceq h3
          rw [decide_eq_false hne']
          simp only [Bool.false_eq_true, if_false, Nat.add_zero]
          exact load_series_warn_count pc f idx cur husd hnocfg rest
        | some sym =>
          dsimp only
          rw [List.countP_append, fetch_msgs_no_pair,
            load_series_warn_count pc f idx cur husd hnocfg rest]
          exact Nat.zero_add _

theorem load_series_fetched_erase (pc : List (String × CurrencyPairConfig))
    (f : String → Except String (List (ℤ × ℚ))) (idx : List ℤ) (cur : String)
    (husd : cur ≠ "USD")
    (hnocfg : (pc.lookup cur).bind (fun cfg => cfg.symbol) = none) :
    ∀ currencies : List String,
    (load_series pc f currencies idx).fetched_symbols
      = (load_series pc f (currencies.erase cur) idx).fetched_symbols
  | [] => rfl
  | c :: rest => by
    by_cases hceq : c = cur
    · subst hceq
      rw [List.erase_cons_head]
      conv_lhs => unfold load_series
      rw [if_neg husd, hnocfg]
    · have hbeq : ¬ (c == cur) = true := by
        simp [beq_eq_false_iff_ne]
        exact hceq
      rw [List.erase_cons_tail hbeq]
      unfold load_series
      dsimp only
      by_cases hcu : c = "USD"
      · rw [if_pos hcu, if_pos hcu]
        exact load_series_fetched_erase pc f idx cur husd hnocfg rest
      · rw [if_neg hcu, if_neg hcu]
        cases hcfg2 : (pc.lookup c).bind (fun cfg => cfg.symbol) with
        | none =>
          dsimp only
          exact load_series_fetched_erase pc f idx cur husd hnocfg rest
        | some sym =>
          dsimp only
          rw [load_series_fetched_erase pc f idx cur husd hnocfg rest]

/-- C8: unconfigured-currency fallback.  For a non-USD currency with no
configured pair or no quote symbol, appearing once in the requested list,
`load_series` maps it to the constant 1.0 series over the target index,
appends exactly one WARNING for that currency, performs no external fetch
for it (the fetch log equals that of the run without the currency), and
still produces a series for every requested currency (the run never
fails). -/
theorem C8_unconfigured_currency_fallback
    (pc : List (String × CurrencyPairConfig))
    (f : String → Except String (List (ℤ × ℚ))) (idx : List ℤ) (cur : String)
    (currencies : List String) (husd : cur ≠ "USD")
    (hnocfg : (pc.lookup cur).bind (fun cfg => cfg.symbol) = none)
    (hcount : currencies.count cur = 1) :
    ((load_series pc f currencies idx).series_by_currency).lookup cur
        = some (constSeries idx) ∧
    ((load_series pc f currencies idx).messages).countP
        (fun m => m = ⟨.WARNING, .noPairConfig cur⟩) = 1 ∧
    (load_series pc f currencies idx).fetched_symbols
        = (load_series pc f (currencies.erase cur) idx).fetched_symbols ∧
    (∀ c' ∈ currencies,
      (((load_series pc f currencies idx).series_by_currency).lookup c').isSome) := by
  have hmem : cur ∈ currencies := by
    have h1 : currencies.count cur ≠ 0 := by rw [hcount]; norm_num
    by_contra hnm
    exact h1 (List.count_eq_zero.mpr hnm)
  refine ⟨load_series_lookup_const pc f idx cur husd hnocfg currencies hmem, ?_,
    load_series_fetched_erase pc f idx cur husd hnocfg currencies,
    fun c' hc' => load_series_lookup_isSome pc f idx currencies c' hc'⟩
  rw [load_series_warn_count pc f idx cur husd hnocfg currencies, hcount]

/-- C8 witness: the currency "BRL" with an empty pair configuration, fetched
against an always-failing market-data source, still yields the constant
series, one WARNING, no fetch, and a series for every requested currency. -/
theorem C8_unconfigured_currency_fallback_witness :
    ("BRL" ≠ "USD") ∧
    ((([] : List (String × CurrencyPairConfig)).lookup "BRL").bind
      (fun cfg => cfg.symbol) = none) ∧
    (["BRL"].count "BRL" = 1) ∧
    (((load_series [] (fun _ => .error "down") ["BRL"]
        [0]).series_by_currency).lookup "BRL" = some (constSeries [0]) ∧
     ((load_series [] (fun _ => .error "down") ["BRL"] [0]).messages).countP
        (fun m => m = ⟨.WARNING, .noPairConfig "BRL"⟩) = 1 ∧
     (load_series [] (fun _ => .error "down") ["BRL"] [0]).fetched_symbols
        = (load_series [] (fun _ => .error "down") (["BRL"].erase "BRL")
            [0]).fetched_symbols ∧
     (∀ c' ∈ ["BRL"],
       (((load_series [] (fun _ => .error "down") ["BRL"]
          [0]).series_by_currency).lookup c').isSome)) := by
  have husd : "BRL" ≠ "USD" := by decide
  have hnocfg : ((([] : List (String × CurrencyPairConfig)).lookup "BRL").bind
      (fun cfg => cfg.symbol) = none) := rfl
  have hcount : (["BRL"].count "BRL" = 1) := by decide
  exact ⟨husd, hnocfg, hcount,
    C8_unconfigured_currency_fallback [] (fun _ => .error "down") [0] "BRL"
      ["BRL"] husd hnocfg hcount⟩

end Portfolio
